import Mathlib

/-!
# golf engine: pixel codec, registers, rasterizer and the flag conversion tool

A shallow embedding of `golf_server/golf_test/golf/golf.go` and of `util/flag.go`.

* The engine memory `RAM *[0xFFFF]byte` is a function from addresses to bytes
  (naturals below 256); an index outside `0 .. 0xFFFE` makes Go halt with a
  run-time error, which is the result `none` here.
* Go's `int` is 64 bits wide on the js/wasm target the engine is built for:
  integer arithmetic on coordinates wraps (`wrap64`), `/` and `%` truncate
  toward zero (`Int.tdiv`, `Int.tmod`), a shift by a negative count halts.
* `byte` arithmetic is arithmetic on naturals reduced `% 256`.
-/

namespace Golf

/-! ## Memory -/

/-- Number of bytes of `RAM *[0xFFFF]byte`. -/
def RAMSize : Nat := 0xFFFF

/-- Engine state: the memory block `RAM`, every cell holding a byte. The fields
`screenBufHook`, `Draw` and `Update` of the Go struct are host callbacks and handles
that no drawing routine reads; they are left out. Cells at addresses from `RAMSize`
on are never read or written: every access is checked against `RAMSize` first. -/
structure Engine where
  RAM : Nat → Nat
  isByte : ∀ a, RAM a < 256

/-- Assignment `e.RAM[i] = byte(v)` at an address known to be in range. -/
def Engine.write (e : Engine) (i : Nat) (v : Nat) : Engine where
  RAM := fun a => if a = i then v % 256 else e.RAM a
  isByte := by
    intro a
    by_cases h : a = i
    · simp only [h, if_true]; exact Nat.mod_lt _ (by decide)
    · simp only [h, if_false]; exact e.isByte a

/-- Go `int` arithmetic: reduce a mathematical integer to the signed 64-bit range. -/
def wrap64 (v : Int) : Int := (v + 2 ^ 63) % 2 ^ 64 - 2 ^ 63

/-- Index check of `e.RAM[i]`. -/
def inRAM (i : Int) : Prop := 0 ≤ i ∧ i < (RAMSize : Int)

instance (i : Int) : Decidable (inRAM i) := by unfold inRAM; infer_instance

/-- Read `e.RAM[i]`; out of range is a run-time error. -/
def Engine.load (e : Engine) (i : Int) : Option Nat :=
  if inRAM i then some (e.RAM i.toNat) else none

/-- Write `e.RAM[i] = v`; out of range is a run-time error. -/
def Engine.store (e : Engine) (i : Int) (v : Nat) : Option Engine :=
  if inRAM i then some (e.write i.toNat v) else none

/-- Byte shift `b << s` with an `int` count: a negative count is a run-time error,
the result is truncated to a byte. -/
def shl8 (b : Nat) (s : Int) : Option Nat :=
  if 0 ≤ s then some ((b <<< s.toNat) % 256) else none

/-- Byte shift `b >> s` with an `int` count: a negative count is a run-time error. -/
def shr8 (b : Nat) (s : Int) : Option Nat :=
  if 0 ≤ s then some (b >>> s.toNat) else none

/-- Slice indexing `l[i]` with an `int` index. -/
def index (l : List Nat) (i : Int) : Option Nat :=
  if 0 ≤ i then l[i.toNat]? else none

/-- Counted loop `for k := 0; k < n; k++ { body }`. -/
def forLoop (n : Nat) (body : Nat → Engine → Option Engine) (e : Engine) : Option Engine :=
  match n with
  | 0 => some e
  | k + 1 => (forLoop k body e).bind (body k)

/-- Counted loop whose body cannot fail: `for k := lo; k < lo + n; k++ { RAM[k] = v }`. -/
def fillLoop (lo n : Nat) (v : Nat) (e : Engine) : Engine :=
  match n with
  | 0 => e
  | k + 1 => (fillLoop lo k v e).write (lo + k) v

/-! ## Colours -/

def Col0 : Nat := 0b10000000
def Col1 : Nat := 0b10000001
def Col2 : Nat := 0b10000010
def Col3 : Nat := 0b10000011
def Col4 : Nat := 0b10000100
def Col5 : Nat := 0b10000101
def Col6 : Nat := 0b10000110
def Col7 : Nat := 0b10000111

/-! ## toInt / toBytes -/

/-- The function `toInt` on a slice of at most four bytes (big-endian). -/
def toInt (b : List Nat) : Int :=
  let l := b.length
  let ret : Nat → Nat := fun k =>
    -- ret[3-i] = b[l-i-1] when l-i-1 > -1, for i = 3 - k
    if 3 - k < l then b.getD (l - (3 - k) - 1) 0 else 0
  ((ret 0 <<< 24 ||| ret 1 <<< 16 ||| ret 2 <<< 8 ||| ret 3 : Nat) : Int)

/-- The function `toBytes` for `l = 2`: `[]byte{byte(i >> 8), byte(i)}`. -/
def toBytes2 (i : Int) : List Nat :=
  [((i >>> (8 : Nat)) % 256).toNat, (i % 256).toNat]

/-! ## Engine operations -/

/-- The method `Engine.Cls`. -/
def Cls (e : Engine) : Engine :=
  let c := e.RAM 0x3602 >>> 5
  let colBG := ((c <<< 6) % 256) ||| ((c <<< 4) % 256) ||| ((c <<< 2) % 256) ||| c
  let palBG := if e.RAM 0x3602 >>> 7 = 1 then 0b11111111 else 0
  let e1 := fillLoop 0 0x2400 colBG e
  fillLoop 0x2401 (0x3600 - 0x2401) palBG e1

/-- The method `Engine.Camera`. -/
def Camera (e : Engine) (x y : Int) : Engine :=
  let xb := toBytes2 x
  let yb := toBytes2 y
  (((e.write 0x3603 (xb.getD 0 0)).write 0x3604 (xb.getD 1 0)).write 0x3605 (yb.getD 0 0)).write
    0x3606 (yb.getD 1 0)

/-- The table `masks` of `Engine.Pset`. -/
def psetMasks : List Nat := [0b11111100, 0b11110011, 0b11001111, 0b00111111]

/-- The table `masks` of `Engine.Pget`. -/
def pgetMasks : List Nat := [0b00000011, 0b00001100, 0b00110000, 0b11000000]

/-- The method `Engine.Pset`. -/
def Pset (e : Engine) (x y : Int) (col : Nat) : Option Engine := do
  let cshift := x.tmod 4
  let pshift := x.tmod 8
  let i := wrap64 (x.tdiv 4 + wrap64 (y * 48))
  let j := wrap64 (x.tdiv 8 + wrap64 (y * 24))
  let pixel ← e.load i
  let newCol ← shl8 (col &&& 0b00000011) (wrap64 (cshift * 2))
  let mask ← index psetMasks cshift
  let newPix := (pixel &&& mask) ||| newCol
  let e1 ← e.store i newPix
  let newPal ← shl8 ((col &&& 0b00000100) >>> 2) pshift
  let bit ← shl8 0b00000001 pshift
  let p ← e1.load (wrap64 (j + 0x2401))
  let e2 ← e1.store (wrap64 (j + 0x2401)) (p &&& bit)
  let p2 ← e2.load (wrap64 (j + 0x2401))
  e2.store (wrap64 (j + 0x2401)) (p2 ||| newPal)

/-- The method `Engine.Pget`. -/
def Pget (e : Engine) (x y : Int) : Option Nat := do
  let cshift := x.tmod 4
  let pshift := x.tmod 8
  let i := wrap64 (x.tdiv 4 + wrap64 (y * 48))
  let j := wrap64 (x.tdiv 8 + wrap64 (y * 24))
  let pixel ← e.load i
  let pb ← e.load (wrap64 (j + 0x2401))
  let ps ← shr8 pb pshift
  let pal := ps &&& 0b00000001
  let mask ← index pgetMasks cshift
  let pixel1 := pixel &&& mask
  let pixel2 ← shr8 pixel1 (wrap64 (cshift * 2))
  let palBit ← shl8 pal 2
  pure (pixel2 &&& palBit)

/-- Camera offset read by the draw routines: `toInt(e.RAM[0x3603:0x3605])`. -/
def cameraX (e : Engine) : Int := toInt [e.RAM 0x3603, e.RAM 0x3604]

/-- Camera offset read by the draw routines: `toInt(e.RAM[0x3605:0x3607])`. -/
def cameraY (e : Engine) : Int := toInt [e.RAM 0x3605, e.RAM 0x3606]

/-- The method `Engine.RectFill`. -/
def RectFill (e : Engine) (x y w h : Int) (col : Nat) : Option Engine :=
  let x1 := wrap64 (x - cameraX e)
  let y1 := wrap64 (y - cameraY e)
  forLoop w.toNat (fun r => forLoop h.toNat (fun c e2 =>
    Pset e2 (wrap64 (r + x1)) (wrap64 (c + y1)) col)) e

/-! ## Observations used to state the properties -/

/-- Stored 2-bit colour index of canvas pixel `(x, y)`. -/
def storedIndex (e : Engine) (x y : Nat) : Nat :=
  (e.RAM (x / 4 + y * 48) >>> ((x % 4) * 2)) &&& 3

/-- Stored bank bit of canvas pixel `(x, y)`. -/
def storedBank (e : Engine) (x y : Nat) : Nat :=
  (e.RAM (0x2401 + x / 8 + y * 24) >>> (x % 8)) &&& 1

/-- The all-zero memory. -/
def zeroEngine : Engine := ⟨fun _ => 0, fun _ => Nat.zero_lt_succ _⟩

/-- Address of the colour-plane byte `Pset` and `Pget` index with `i`. -/
def pixAddr (x y : Int) : Int := wrap64 (x.tdiv 4 + wrap64 (y * 48))

/-- Address of the palette-plane byte `Pset` and `Pget` index with `j+0x2401`. -/
def palAddr (x y : Int) : Int := wrap64 (wrap64 (x.tdiv 8 + wrap64 (y * 24)) + 0x2401)

/-- The run-time checks a call `Pset(x, y, col)` has to pass. -/
def psetOK (x y : Int) : Prop :=
  inRAM (pixAddr x y) ∧ 0 ≤ x.tmod 4 ∧ 0 ≤ x.tmod 8 ∧ inRAM (palAddr x y)

instance (x y : Int) : Decidable (psetOK x y) := by unfold psetOK; infer_instance

/-- The three assignments of `Pset` once every check has passed: colour byte `i`,
slot `cs`; palette byte `ja`, bit `ps`. -/
def psetWrite (e : Engine) (i ja cs ps col : Nat) : Engine :=
  let e1 := e.write i ((e.RAM i &&& psetMasks.getD cs 0) ||| ((col &&& 3) <<< (cs * 2)) % 256)
  let e2 := e1.write ja (e1.RAM ja &&& ((1 <<< ps) % 256))
  e2.write ja (e2.RAM ja ||| ((((col &&& 4) >>> 2) <<< ps) % 256))

/-- Two results agree: both calls fail with a run-time error, or both succeed and the
states they leave are related by `R`. -/
def agreeOpt (R : Engine → Engine → Prop) (o1 o2 : Option Engine) : Prop :=
  (o1 = none ∧ o2 = none) ∨ ∃ a b, o1 = some a ∧ o2 = some b ∧ R a b

/-- The value `Pget` returns once every check has passed: colour byte `i`, slot `cs`;
palette byte `ja`, bit `ps`. -/
def pgetValue (e : Engine) (i ja cs ps : Nat) : Nat :=
  ((e.RAM i &&& pgetMasks.getD cs 0) >>> (cs * 2)) &&&
    ((((e.RAM ja >>> ps) &&& 1) <<< 2) % 256)

/-- Colour byte `colBG` computed by `Cls`. -/
def clsColBG (e : Engine) : Nat :=
  let c := e.RAM 0x3602 >>> 5
  ((c <<< 6) % 256) ||| ((c <<< 4) % 256) ||| ((c <<< 2) % 256) ||| c

/-- Palette byte `palBG` computed by `Cls`. -/
def clsPalBG (e : Engine) : Nat := if e.RAM 0x3602 >>> 7 = 1 then 0b11111111 else 0

/-- The method `Engine.Rect`. -/
def Rect (e : Engine) (x y w h : Int) (col : Nat) : Option Engine :=
  let x1 := wrap64 (x - cameraX e)
  let y1 := wrap64 (y - cameraY e)
  (forLoop w.toNat (fun r e2 =>
      (Pset e2 (wrap64 (x1 + r)) y1 col).bind fun e3 =>
        Pset e3 (wrap64 (x1 + r)) (wrap64 (y1 + wrap64 (h - 1))) col) e).bind
    (forLoop h.toNat (fun c e2 =>
      (Pset e2 x1 (wrap64 (y1 + c)) col).bind fun e3 =>
        Pset e3 (wrap64 (x1 + wrap64 (w - 1))) (wrap64 (y1 + c)) col))

/-- State `u` is state `e` with the stored index of the canvas pixels in `S` set to
`col & 3` and the stored index of every other canvas pixel as in `e`. -/
def paintedBy (e u : Engine) (S : Nat → Nat → Prop) (col : Nat) : Prop :=
  ∀ x' y', x' < 192 → y' < 192 →
    (S x' y' → storedIndex u x' y' = col &&& 3) ∧
    (¬ S x' y' → storedIndex u x' y' = storedIndex e x' y')

/-- The function `toBytes` for `l = 3`: `[]byte{byte(i >> 16), byte(i >> 8), byte(i)}`. -/
def toBytes3 (i : Int) : List Nat :=
  [((i >>> (16 : Nat)) % 256).toNat, ((i >>> (8 : Nat)) % 256).toNat, (i % 256).toNat]

/-- The method `Engine.Frames`: `toInt(e.RAM[0x3607:0x360A])`. -/
def Frames (e : Engine) : Int := toInt [e.RAM 0x3607, e.RAM 0x3608, e.RAM 0x3609]

/-- The method `Engine.addFrame`. -/
def addFrame (e : Engine) : Engine :=
  let f := toInt [e.RAM 0x3607, e.RAM 0x3608, e.RAM 0x3609]
  let f1 := wrap64 (f + 1)
  let b := toBytes3 f1
  ((e.write 0x3607 (b.getD 0 0)).write 0x3608 (b.getD 1 0)).write 0x3609 (b.getD 2 0)

/-- The method `Engine.BG`; `byte(col << 5)` is a shift in byte arithmetic. -/
def BG (e : Engine) (col : Nat) : Engine :=
  let e1 := e.write 0x3602 (e.RAM 0x3602 &&& 0b00011111)
  e1.write 0x3602 (e1.RAM 0x3602 ||| ((col <<< 5) % 256))

/-- The method `Engine.PalA`; `byte(pallet << 4)` is a shift in byte arithmetic. -/
def PalA (e : Engine) (pallet : Nat) : Engine :=
  let e1 := e.write 0x3601 (e.RAM 0x3601 &&& 0b00001111)
  e1.write 0x3601 (e1.RAM 0x3601 ||| ((pallet <<< 4) % 256))

/-- The method `Engine.PalB`. -/
def PalB (e : Engine) (pallet : Nat) : Engine :=
  let e1 := e.write 0x3601 (e.RAM 0x3601 &&& 0b11110000)
  e1.write 0x3601 (e1.RAM 0x3601 ||| (pallet % 256))

/-- The method `Engine.PalGet`. -/
def PalGet (e : Engine) : Nat × Nat :=
  (e.RAM 0x3601 >>> 4, e.RAM 0x3601 &&& 0b00001111)

/-- Copy loop `for i, b := range src { RAM[i+base] = b }` over the first `n` entries
of `src`; every address written is in range for the callers below. -/
def copyLoop (base n : Nat) (src : Nat → Nat) (e : Engine) : Engine :=
  match n with
  | 0 => e
  | k + 1 => (copyLoop base k src e).write (k + base) (src k)

/-- Entry `sheet[i]` of a sprite sheet `[0x3000]byte`. -/
def sheetAt (sheet : Fin 0x3000 → Fin 256) (i : Nat) : Nat :=
  if h : i < 0x3000 then (sheet ⟨i, h⟩).val else 0

/-- The method `Engine.LoadSprs`. -/
def LoadSprs (e : Engine) (sheet : Fin 0x3000 → Fin 256) : Engine :=
  copyLoop 0x3F49 0x3000 (sheetAt sheet) e

/-! ## The flag conversion tool (`util/flag.go`)

Go strings are modelled by Lean strings (sequences of Unicode characters); `len(s)` is
the length of the UTF-8 encoding, `range s` visits the characters in order. -/

/-- The errors `stringToByte` and `convertFlag` construct with `errors.New`. -/
inductive FlagError where
  /-- Message `string "<s>" is not 8 characters long`. -/
  | notEightLong (bString : String)
  /-- Message `string "<s>" contains a character other than 0 and 1`. -/
  | notBinary (bString : String)
  /-- Message `Only the first 512 sprites can have sprite tiles`. -/
  | tooManyEntries
  deriving DecidableEq

/-- The loop `for _, c := range bString` of `stringToByte`, `ret` being a byte. -/
def stringToByteLoop (bString : String) : List Char → Nat → Except FlagError Nat
  | [], ret => .ok ret
  | c :: cs, ret =>
    if c ≠ '0' ∧ c ≠ '1' then .error (.notBinary bString)
    else
      let ret1 := if c = '1' then (ret + 1) % 256 else ret
      stringToByteLoop bString cs ((ret1 <<< 1) % 256)

/-- The function `stringToByte`. -/
def stringToByte (bString : String) : Except FlagError Nat :=
  if bString.utf8ByteSize ≠ 8 then .error (.notEightLong bString)
  else stringToByteLoop bString bString.data 0

/-- The loop `for i, bstr := range csvFile` of `convertFlag`, filling `conv`. -/
def convLoop : List String → Nat → List Nat → Except FlagError (List Nat)
  | [], _, conv => .ok conv
  | bstr :: rest, i, conv =>
    match stringToByte bstr with
    | .error err => .error err
    | .ok b => convLoop rest (i + 1) (conv.set i b)

/-- The loop behind `strings.Split(s, ",")`: `acc` holds, reversed, the characters read
since the last comma. -/
def splitCommaLoop : List Char → List Char → List String
  | [], acc => [String.mk acc.reverse]
  | c :: cs, acc =>
    if c = ',' then String.mk acc.reverse :: splitCommaLoop cs [] else splitCommaLoop cs (c :: acc)

/-- The call `strings.Split(s, ",")`: the pieces of `s` between its commas, one more
than there are commas. -/
def splitComma (s : String) : List String := splitCommaLoop s.data []

/-- The table `conv` that `convertFlag` builds from the content of the input file. -/
def convTable (file : String) : Except FlagError (List Nat) :=
  let csvFile := splitComma file
  if csvFile.length > 512 then .error .tooManyEntries
  else convLoop csvFile 0 (List.replicate 512 0)

/-- The text `convertFlag` writes for a table; `printByte` is defined elsewhere in
package `main` and is a parameter here. -/
def flagContent (printByte : Nat → String) (conv : List Nat) : String :=
  conv.foldl (fun content b => content ++ (printByte b ++ ","))
    "package main\n\nvar spriteFlags = [0x200]byte\x7b\n" ++ "\n\x7d"

/-- The function `convertFlag`, from the content of the input file to the content
written to the output file; reading and writing the files themselves is left out. -/
def convertFlag (printByte : Nat → String) (file : String) : Except FlagError String :=
  match convTable file with
  | .error err => .error err
  | .ok conv => .ok (flagContent printByte conv)

/-! ## `float64` arithmetic and `Line`

A finite `float64` is modelled by the rational number it denotes. Every operation
computes the exact result and rounds it to 53 significant bits, ties to even
(`round64`). The exponent range is not modelled: the values `Line` computes are sums,
quotients and products of 64-bit integers, far from overflow and underflow; a division
by `float64(0)` gives a value that `Line` never uses (it is guarded by `w > 0`, `h > 0`);
the sign of a zero is lost, which the conversion `int(f)` does not see. -/

/-- Nearest integer, ties to the even one. -/
def roundHalfEven (m : ℚ) : Int :=
  let f := ⌊m⌋
  let r := m - f
  if r < 1 / 2 then f else if 1 / 2 < r then f + 1 else if f % 2 = 0 then f else f + 1

/-- Rounding of an exact result to the nearest `float64` (53 significant bits). -/
def round64 (q : ℚ) : ℚ :=
  if q = 0 then 0
  else
    let ulp : ℚ := 2 ^ (Int.log 2 |q| - 52)
    (roundHalfEven (q / ulp) : ℚ) * ulp

/-- The conversion `float64(i)`. -/
def f64ofInt (i : Int) : ℚ := round64 i

/-- The `float64` subtraction `a - b`. -/
def f64sub (a b : ℚ) : ℚ := round64 (a - b)

/-- The `float64` division `a / b`. -/
def f64div (a b : ℚ) : ℚ := round64 (a / b)

/-- The `float64` product `a * b`. -/
def f64mul (a b : ℚ) : ℚ := round64 (a * b)

/-- The conversion `int(f)`: the fraction is discarded; a value outside the `int` range
converts to the smallest `int`, as on the js/wasm and amd64 targets (the language leaves
that case to the implementation). -/
def f64toInt (f : ℚ) : Int :=
  let t := if 0 ≤ f then ⌊f⌋ else ⌈f⌉
  if -2 ^ 63 ≤ t ∧ t < 2 ^ 63 then t else -2 ^ 63

/-- The method `Engine.Line`. -/
def Line (e : Engine) (x1 y1 x2 y2 : Int) (col : Nat) : Option Engine :=
  let x1 := wrap64 (x1 - cameraX e)
  let x2 := wrap64 (x2 - cameraX e)
  let y1 := wrap64 (y1 - cameraY e)
  let y2 := wrap64 (y2 - cameraY e)
  -- if x2 < x1 { x2, x1 = x1, x2 }
  let xa := if x2 < x1 then x2 else x1
  let xb := if x2 < x1 then x1 else x2
  let w := wrap64 (xb - xa)
  let dh := f64div (f64sub (f64ofInt y2) (f64ofInt y1)) (f64ofInt w)
  if 0 < w then
    -- for x := x1; x < x2; x++, with x = xa + k
    forLoop (xb - xa).toNat (fun k e2 =>
      Pset e2 (xa + k)
        (wrap64 (y1 + f64toInt (f64mul dh (f64ofInt (wrap64 (xa + k - xa)))))) col) e
  else
    -- if y2 < y1 { y2, y1 = y1, y2 }
    let ya := if y2 < y1 then y2 else y1
    let yb := if y2 < y1 then y1 else y2
    let h := wrap64 (yb - ya)
    let dw := f64div (f64sub (f64ofInt xb) (f64ofInt xa)) (f64ofInt h)
    if 0 < h then
      -- for y := y1; y < y2; y++, with y = ya + k
      forLoop (yb - ya).toNat (fun k e2 =>
        Pset e2 (wrap64 (xa + f64toInt (f64mul dw (f64ofInt (wrap64 (ya + k - ya))))))
          (ya + k) col) e
    else some e

/-- Value of a binary digit character. -/
def binDigit (c : Char) : Nat := if c = '1' then 1 else 0

/-- The number a sequence of binary digits denotes, first digit most significant. -/
def binValue (cs : List Char) : Nat := cs.foldl (fun acc c => 2 * acc + binDigit c) 0

/-- The method `Engine.Clip`; `byte(x)` keeps the low 8 bits. -/
def Clip (e : Engine) (x y w h : Int) : Engine :=
  (((e.write 0x360A (x % 256).toNat).write 0x360B (y % 256).toNat).write
    0x360C (w % 256).toNat).write 0x360D (h % 256).toNat

/-- The method `Engine.RClip`. -/
def RClip (e : Engine) : Engine :=
  (((e.write 0x360A 0).write 0x360B 0).write 0x360C 192).write 0x360D 192

/-- Two states hold the same byte at every address in `S`. -/
def agreeOn (S : Nat → Prop) (u v : Engine) : Prop := ∀ a, S a → u.RAM a = v.RAM a

/-- The addresses outside the clip bytes `0x360A .. 0x360D`. -/
def notClip (a : Nat) : Prop := a < 0x360A ∨ 0x360D < a

/-- State `u` holds the same bytes as `e` from address `0x3601` on, i.e. everywhere above
the two bitplanes: registers, input area, sprite sheets. -/
def regsKept (e u : Engine) : Prop := ∀ a, 0x3601 ≤ a → u.RAM a = e.RAM a

/-! ## Basic facts -/

theorem Engine.ext_RAM {e1 e2 : Engine} (h : ∀ a, e1.RAM a = e2.RAM a) : e1 = e2 := by
  cases e1; cases e2
  congr
  exact funext h

@[simp] theorem Engine.write_RAM (e : Engine) (i v a : Nat) :
    (e.write i v).RAM a = if a = i then v % 256 else e.RAM a := rfl

theorem wrap64_id {v : Int} (h1 : -2 ^ 63 ≤ v) (h2 : v < 2 ^ 63) : wrap64 v = v := by
  unfold wrap64; omega

theorem tmod4_lt (x : Int) : x.tmod 4 < 4 := Int.tmod_lt_of_pos x (by decide)

theorem tmod8_lt (x : Int) : x.tmod 8 < 8 := Int.tmod_lt_of_pos x (by decide)

theorem index_psetMasks {cs : Int} (h0 : 0 ≤ cs) (h4 : cs < 4) :
    index psetMasks cs = some (psetMasks.getD cs.toNat 0) := by
  have : cs = 0 ∨ cs = 1 ∨ cs = 2 ∨ cs = 3 := by omega
  rcases this with h | h | h | h <;> subst h <;> rfl

theorem index_neg (l : List Nat) {cs : Int} (h : ¬ 0 ≤ cs) : index l cs = none := by
  simp [index, h]

/-- Closed form of `Pset`: it fails exactly when a run-time check fails, and
otherwise performs its three assignments. -/
theorem Pset_eq (e : Engine) (x y : Int) (col : Nat) :
    Pset e x y col =
      if psetOK x y then
        some (psetWrite e (pixAddr x y).toNat (palAddr x y).toNat (x.tmod 4).toNat
          (x.tmod 8).toNat col)
      else none := by
  have h4 := tmod4_lt x
  have h8 := tmod8_lt x
  unfold Pset psetOK
  by_cases hi : inRAM (pixAddr x y)
  · by_cases hc : 0 ≤ x.tmod 4
    · have hw : wrap64 (x.tmod 4 * 2) = x.tmod 4 * 2 := wrap64_id (by omega) (by omega)
      have hw0 : 0 ≤ x.tmod 4 * 2 := by omega
      have ht : (x.tmod 4 * 2).toNat = (x.tmod 4).toNat * 2 := by omega
      by_cases hp : 0 ≤ x.tmod 8
      · by_cases hj : inRAM (palAddr x y)
        · unfold pixAddr at hi
          unfold palAddr at hj
          simp [Engine.load, Engine.store, shl8, index_psetMasks hc h4, hi, hc, hp, hj, hw, hw0,
            ht, psetWrite, pixAddr, palAddr]
        · unfold pixAddr at hi
          unfold palAddr at hj
          simp [Engine.load, Engine.store, shl8, index_psetMasks hc h4, hi, hc, hp, hj, hw, hw0,
            pixAddr, palAddr]
      · unfold pixAddr at hi
        simp [Engine.load, Engine.store, shl8, index_psetMasks hc h4, hi, hc, hp, hw, hw0, pixAddr]
    · unfold pixAddr at hi
      simp [Engine.load, Engine.store, shl8, index_neg _ hc, hi, hc, pixAddr]
  · unfold pixAddr at hi
    simp [Engine.load, hi, pixAddr]

/-! ## `Pset` on the canvas -/

theorem tdiv4_natCast (x : Nat) : (x : Int).tdiv 4 = ((x / 4 : Nat) : Int) := by
  rw [Int.tdiv_eq_ediv (by omega) (by decide)]; omega

theorem tdiv8_natCast (x : Nat) : (x : Int).tdiv 8 = ((x / 8 : Nat) : Int) := by
  rw [Int.tdiv_eq_ediv (by omega) (by decide)]; omega

theorem tmod4_natCast (x : Nat) : (x : Int).tmod 4 = ((x % 4 : Nat) : Int) := by
  rw [Int.tmod_eq_emod (by omega) (by decide)]; omega

theorem tmod8_natCast (x : Nat) : (x : Int).tmod 8 = ((x % 8 : Nat) : Int) := by
  rw [Int.tmod_eq_emod (by omega) (by decide)]; omega

theorem pixAddr_canvas {x y : Nat} (hx : x < 192) (hy : y < 192) :
    pixAddr x y = ((x / 4 + y * 48 : Nat) : Int) := by
  unfold pixAddr
  rw [tdiv4_natCast x]
  rw [wrap64_id (v := (y : Int) * 48) (by omega) (by omega)]
  rw [wrap64_id (by omega) (by omega)]
  push_cast
  rfl

theorem palAddr_canvas {x y : Nat} (hx : x < 192) (hy : y < 192) :
    palAddr x y = ((0x2401 + x / 8 + y * 24 : Nat) : Int) := by
  unfold palAddr
  rw [tdiv8_natCast x]
  rw [wrap64_id (v := (y : Int) * 24) (by omega) (by omega)]
  rw [wrap64_id (v := ((x / 8 : Nat) : Int) + (y : Int) * 24) (by omega) (by omega)]
  rw [wrap64_id (by omega) (by omega)]
  push_cast
  omega

theorem psetOK_canvas {x y : Nat} (hx : x < 192) (hy : y < 192) : psetOK x y := by
  unfold psetOK
  rw [pixAddr_canvas hx hy, palAddr_canvas hx hy, tmod4_natCast x, tmod8_natCast x]
  unfold inRAM RAMSize
  omega

/-- On the canvas `Pset` succeeds and performs its three assignments at the
colour byte `x/4 + y*48` and the palette byte `0x2401 + x/8 + y*24`. -/
theorem Pset_canvas (e : Engine) {x y : Nat} (col : Nat) (hx : x < 192) (hy : y < 192) :
    Pset e x y col =
      some (psetWrite e (x / 4 + y * 48) (0x2401 + x / 8 + y * 24) (x % 4) (x % 8) col) := by
  rw [Pset_eq, if_pos (psetOK_canvas hx hy), pixAddr_canvas hx hy, palAddr_canvas hx hy,
    tmod4_natCast x, tmod8_natCast x]
  rfl

/-- Bytes of memory after the three assignments of `Pset`, when the colour byte
and the palette byte are different cells. -/
theorem psetWrite_RAM (e : Engine) {i ja : Nat} (cs ps col a : Nat) (hne : ja ≠ i) :
    (psetWrite e i ja cs ps col).RAM a =
      if a = ja then
        (((e.RAM ja &&& ((1 <<< ps) % 256)) % 256) ||| ((((col &&& 4) >>> 2) <<< ps) % 256)) % 256
      else if a = i then
        ((e.RAM i &&& psetMasks.getD cs 0) ||| ((col &&& 3) <<< (cs * 2)) % 256) % 256
      else e.RAM a := by
  by_cases h : a = ja <;> simp [psetWrite, h, hne]

set_option maxRecDepth 1000000 in
theorem slot_written : ∀ p : Fin 256, ∀ k : Fin 4, ∀ c : Fin 4,
    ((((p.val &&& psetMasks.getD k.val 0) ||| ((c.val <<< (k.val * 2)) % 256)) % 256)
      >>> (k.val * 2)) &&& 3 = c.val := by
  decide

set_option maxRecDepth 1000000 in
theorem slot_kept : ∀ p : Fin 256, ∀ k : Fin 4, ∀ c : Fin 4, ∀ k' : Fin 4, k' ≠ k →
    ((((p.val &&& psetMasks.getD k.val 0) ||| ((c.val <<< (k.val * 2)) % 256)) % 256)
      >>> (k'.val * 2)) &&& 3 = (p.val >>> (k'.val * 2)) &&& 3 := by
  decide

theorem and3_lt (col : Nat) : col &&& 3 < 4 :=
  Nat.lt_of_le_of_lt Nat.and_le_right (by decide)

/-- Stored index of every canvas pixel after a `Pset` on the canvas. -/
theorem storedIndex_psetWrite (e : Engine) {x y x' y' : Nat} (col : Nat)
    (hx : x < 192) (hy : y < 192) (hx' : x' < 192) (hy' : y' < 192) :
    storedIndex (psetWrite e (x / 4 + y * 48) (0x2401 + x / 8 + y * 24) (x % 4) (x % 8) col)
        x' y' =
      if x' = x ∧ y' = y then col &&& 3 else storedIndex e x' y' := by
  unfold storedIndex
  rw [psetWrite_RAM e _ _ _ _ (by omega), if_neg (by omega)]
  by_cases hb : x' / 4 + y' * 48 = x / 4 + y * 48
  · rw [if_pos hb, hb]
    have hyy : y' = y := by omega
    by_cases hxx : x' = x
    · rw [if_pos ⟨hxx, hyy⟩, hxx]
      exact slot_written ⟨e.RAM (x / 4 + y * 48), e.isByte _⟩ ⟨x % 4, Nat.mod_lt _ (by decide)⟩
        ⟨col &&& 3, and3_lt col⟩
    · rw [if_neg (fun h => hxx h.1)]
      exact slot_kept ⟨e.RAM (x / 4 + y * 48), e.isByte _⟩ ⟨x % 4, Nat.mod_lt _ (by decide)⟩
        ⟨col &&& 3, and3_lt col⟩ ⟨x' % 4, Nat.mod_lt _ (by decide)⟩
        (by intro h; have := congrArg Fin.val h; simp only at this; omega)
  · rw [if_neg hb, if_neg (by intro h; apply hb; rw [h.1, h.2])]

/-! ## Pixel codec: the claims on `Pset` and `Pget` -/

/-- C1 (evaluation at the failing input): on the all-zero memory, `Pget(0, 0)`
after `Pset(0, 0, Col1)` returns 0, although the colour written has index 1 and
bank 0, i.e. value `Col1 & 7 = 1`. -/
theorem Pget_after_Pset_Col1 :
    (Pset zeroEngine 0 0 Col1).bind (fun e => Pget e 0 0) = some 0 ∧ Col1 &&& 7 = 1 := by
  decide

/-- C2: on the canvas `Pset(x, y, col)` succeeds, the two bits at shift `(x mod 4)*2`
of the byte at `x/4 + y*48` become `col & 3`, and the stored index of every other
canvas pixel is unchanged. -/
theorem Pset_writes_index (e : Engine) (x y col : Nat) (hx : x < 192) (hy : y < 192) :
    ∃ e', Pset e x y col = some e' ∧
      (e'.RAM (x / 4 + y * 48) >>> ((x % 4) * 2)) &&& 3 = col &&& 3 ∧
      ∀ x' y', x' < 192 → y' < 192 → (x', y') ≠ (x, y) →
        storedIndex e' x' y' = storedIndex e x' y' := by
  refine ⟨_, Pset_canvas e col hx hy, ?_, ?_⟩
  · have h := storedIndex_psetWrite e col hx hy hx hy
    rw [if_pos ⟨rfl, rfl⟩] at h
    exact h
  · intro x' y' hx' hy' hne
    rw [storedIndex_psetWrite e col hx hy hx' hy', if_neg]
    rintro ⟨h1, h2⟩
    exact hne (by rw [h1, h2])

theorem Pset_writes_index_witness :
    ∃ e', Pset zeroEngine (5 : Nat) (7 : Nat) Col3 = some e' ∧
      (e'.RAM (5 / 4 + 7 * 48) >>> ((5 % 4) * 2)) &&& 3 = Col3 &&& 3 ∧
      ∀ x' y', x' < 192 → y' < 192 → (x', y') ≠ (5, 7) →
        storedIndex e' x' y' = storedIndex zeroEngine x' y' :=
  Pset_writes_index zeroEngine 5 7 Col3 (by decide) (by decide)

/-- C3 (evaluation at the failing input): with palette byte `0x2401` holding `0xFF`,
`Pset(0, 0, Col0)` leaves `0x01` there: bit 0 is still 1 although the bank of `Col0`
is 0, and the other seven bits have been cleared. -/
theorem Pset_bank_byte_Col0 :
    (Pset (zeroEngine.write 0x2401 0xFF) 0 0 Col0).map (fun e => e.RAM 0x2401) = some 0x01 ∧
      (Col0 >>> 2) &&& 1 = 0 := by
  decide

/-- C4: on the canvas `Pset(x, y, col)` succeeds and changes no byte of memory other
than the colour byte at `x/4 + y*48` and the palette byte at `0x2401 + x/8 + y*24`;
every byte from `0x3601` on (registers, input, sprites) is left as it was. -/
theorem Pset_frame (e : Engine) (x y col : Nat) (hx : x < 192) (hy : y < 192) :
    ∃ e', Pset e x y col = some e' ∧
      (∀ a, a ≠ x / 4 + y * 48 → a ≠ 0x2401 + x / 8 + y * 24 → e'.RAM a = e.RAM a) ∧
      ∀ a, 0x3601 ≤ a → e'.RAM a = e.RAM a := by
  refine ⟨_, Pset_canvas e col hx hy, ?_, ?_⟩
  · intro a h1 h2
    rw [psetWrite_RAM e _ _ _ _ (by omega), if_neg h2, if_neg h1]
  · intro a ha
    rw [psetWrite_RAM e _ _ _ _ (by omega), if_neg (by omega), if_neg (by omega)]

theorem Pset_frame_witness :
    ∃ e', Pset zeroEngine (191 : Nat) (191 : Nat) Col7 = some e' ∧
      (∀ a, a ≠ 191 / 4 + 191 * 48 → a ≠ 0x2401 + 191 / 8 + 191 * 24 →
        e'.RAM a = zeroEngine.RAM a) ∧
      ∀ a, 0x3601 ≤ a → e'.RAM a = zeroEngine.RAM a :=
  Pset_frame zeroEngine 191 191 Col7 (by decide) (by decide)

/-! ## `Pget` on the canvas -/

theorem index_pgetMasks {cs : Int} (h0 : 0 ≤ cs) (h4 : cs < 4) :
    index pgetMasks cs = some (pgetMasks.getD cs.toNat 0) := by
  have : cs = 0 ∨ cs = 1 ∨ cs = 2 ∨ cs = 3 := by omega
  rcases this with h | h | h | h <;> subst h <;> rfl

/-- Closed form of `Pget`: it fails exactly when a run-time check fails. -/
theorem Pget_eq (e : Engine) (x y : Int) :
    Pget e x y =
      if psetOK x y then
        some (pgetValue e (pixAddr x y).toNat (palAddr x y).toNat (x.tmod 4).toNat
          (x.tmod 8).toNat)
      else none := by
  have h4 := tmod4_lt x
  have h8 := tmod8_lt x
  unfold Pget psetOK
  by_cases hi : inRAM (pixAddr x y)
  · by_cases hc : 0 ≤ x.tmod 4
    · have hw : wrap64 (x.tmod 4 * 2) = x.tmod 4 * 2 := wrap64_id (by omega) (by omega)
      have hw0 : 0 ≤ x.tmod 4 * 2 := by omega
      have ht : (x.tmod 4 * 2).toNat = (x.tmod 4).toNat * 2 := by omega
      by_cases hp : 0 ≤ x.tmod 8
      · by_cases hj : inRAM (palAddr x y)
        · unfold pixAddr at hi
          unfold palAddr at hj
          simp [Engine.load, shl8, shr8, index_pgetMasks hc h4, hi, hc, hp, hj, hw, hw0,
            ht, pgetValue, pixAddr, palAddr]
        · unfold pixAddr at hi
          unfold palAddr at hj
          simp [Engine.load, hi, hj, pixAddr, palAddr]
      · unfold pixAddr at hi
        simp [Engine.load, shr8, hi, hp, pixAddr]
    · unfold pixAddr at hi
      simp [Engine.load, shr8, index_neg _ hc, hi, hc, pixAddr]
  · unfold pixAddr at hi
    simp [Engine.load, hi, pixAddr]

set_option maxRecDepth 1000000 in
theorem slot_lt_four : ∀ p : Fin 256, ∀ k : Fin 4,
    (p.val &&& pgetMasks.getD k.val 0) >>> (k.val * 2) < 4 := by
  decide

theorem and_bank_zero : ∀ v : Fin 4, ∀ b : Fin 2, v.val &&& ((b.val <<< 2) % 256) = 0 := by
  decide

theorem and1_lt (n : Nat) : n &&& 1 < 2 :=
  Nat.lt_of_le_of_lt Nat.and_le_right (by decide)

/-- On the canvas `Pget` returns 0 whatever is stored. -/
theorem Pget_canvas_zero (e : Engine) {x y : Nat} (hx : x < 192) (hy : y < 192) :
    Pget e x y = some 0 := by
  rw [Pget_eq, if_pos (psetOK_canvas hx hy), pixAddr_canvas hx hy, palAddr_canvas hx hy,
    tmod4_natCast x, tmod8_natCast x]
  simp only [Int.toNat_ofNat, pgetValue]
  have hs := slot_lt_four ⟨_, e.isByte (x / 4 + y * 48)⟩ ⟨x % 4, Nat.mod_lt _ (by decide)⟩
  exact congrArg some (and_bank_zero ⟨_, hs⟩ ⟨_, and1_lt _⟩)

/-! ## `Cls` -/

theorem fillLoop_RAM (lo n v : Nat) (e : Engine) (a : Nat) :
    (fillLoop lo n v e).RAM a = if lo ≤ a ∧ a < lo + n then v % 256 else e.RAM a := by
  induction n with
  | zero => simp only [fillLoop]; rw [if_neg (by omega)]
  | succ k ih =>
    simp only [fillLoop, Engine.write_RAM, ih]
    by_cases h1 : a = lo + k
    · rw [if_pos h1, if_pos (by omega)]
    · rw [if_neg h1]
      by_cases h2 : lo ≤ a ∧ a < lo + k
      · rw [if_pos h2, if_pos (by omega)]
      · rw [if_neg h2, if_neg (by omega)]

/-- Memory after `Cls`: bytes `0x0000 .. 0x23FF` hold the colour byte, bytes
`0x2401 .. 0x35FF` hold the palette byte, every other byte is unchanged. -/
theorem Cls_RAM (e : Engine) (a : Nat) :
    (Cls e).RAM a =
      if 0x2401 ≤ a ∧ a < 0x3600 then clsPalBG e % 256
      else if a < 0x2400 then clsColBG e % 256
      else e.RAM a := by
  unfold Cls
  simp only [fillLoop_RAM]
  by_cases h1 : 0x2401 ≤ a ∧ a < 0x3600
  · rw [if_pos (by omega), if_pos h1]; rfl
  · rw [if_neg (by omega), if_neg h1]
    by_cases h2 : a < 0x2400
    · rw [if_pos (by omega), if_pos h2]; rfl
    · rw [if_neg (by omega), if_neg h2]

/-- C5 (evaluation at the failing input): with background colour 1 in the register
(`RAM[0x3602] = 0x20`, so `RAM[0x3602] >> 5 = 1`), `Pget(0, 0)` after `Cls()`
returns 0. -/
theorem Pget_after_Cls_bg1 :
    Pget (Cls (zeroEngine.write 0x3602 0x20)) 0 0 = some 0 ∧
      (zeroEngine.write 0x3602 0x20).RAM 0x3602 >>> 5 = 1 :=
  ⟨Pget_canvas_zero (x := 0) (y := 0) _ (by decide) (by decide), by decide⟩

/-- C6 (evaluation at the failing input): with background colour 4 (index 0, bank 1,
`RAM[0x3602] = 0x80`), `Cls()` fills the colour plane with `0x54`, so pixel `(1, 0)`
has stored index 1, not the background index 0. -/
theorem Cls_colour_byte_bg4 :
    (Cls (zeroEngine.write 0x3602 0x80)).RAM 0 = 0x54 ∧
      storedIndex (Cls (zeroEngine.write 0x3602 0x80)) 1 0 = 1 ∧
      ((zeroEngine.write 0x3602 0x80).RAM 0x3602 >>> 5) &&& 3 = 0 := by
  refine ⟨?_, ?_, by decide⟩
  · rw [Cls_RAM]; decide
  · unfold storedIndex; rw [Cls_RAM]; decide

/-- C7 (evaluation at the failing input): with background bank 0 and palette byte
`0x3600` holding `0xFF`, after `Cls()` the canvas pixel `(184, 191)`, whose bank bit
is bit 0 of byte `0x2401 + 184/8 + 191*24 = 0x3600`, still has stored bank 1. -/
theorem Cls_misses_last_palette_byte :
    storedBank (Cls (zeroEngine.write 0x3600 0xFF)) 184 191 = 1 ∧
      (Cls (zeroEngine.write 0x3600 0xFF)).RAM 0x3600 = 0xFF ∧
      (zeroEngine.write 0x3600 0xFF).RAM 0x3602 >>> 7 = 0 := by
  refine ⟨?_, ?_, by decide⟩
  · unfold storedBank; rw [Cls_RAM]; decide
  · rw [Cls_RAM]; decide

/-! ## Loops -/

theorem forLoop_succ (n : Nat) (body : Nat → Engine → Option Engine) (e : Engine) :
    forLoop (n + 1) body e = (forLoop n body e).bind (body n) := rfl

/-- Two loop bodies that agree on the indices below the bound give the same loop. -/
theorem forLoop_congr {n : Nat} {b1 b2 : Nat → Engine → Option Engine}
    (h : ∀ k, k < n → ∀ u, b1 k u = b2 k u) (e : Engine) :
    forLoop n b1 e = forLoop n b2 e := by
  induction n with
  | zero => rfl
  | succ k ih =>
    rw [forLoop_succ, forLoop_succ, ih (fun j hj u => h j (Nat.lt_succ_of_lt hj) u)]
    cases forLoop k b2 e with
    | none => rfl
    | some u => exact h k (Nat.lt_succ_self k) u

/-- Loop invariant rule: a body that succeeds and carries `P k` to `P (k+1)` makes
the loop succeed in a state satisfying `P n`. -/
theorem forLoop_inv (P : Nat → Engine → Prop) (body : Nat → Engine → Option Engine)
    (n : Nat) (e : Engine) (h0 : P 0 e)
    (hstep : ∀ k u, k < n → P k u → ∃ v, body k u = some v ∧ P (k + 1) v) :
    ∃ e', forLoop n body e = some e' ∧ P n e' := by
  induction n with
  | zero => exact ⟨e, rfl, h0⟩
  | succ k ih =>
    obtain ⟨u, hu, hP⟩ := ih (fun j v hj hv => hstep j v (Nat.lt_succ_of_lt hj) hv)
    obtain ⟨v, hv, hP'⟩ := hstep k u (Nat.lt_succ_self k) hP
    exact ⟨v, by rw [forLoop_succ, hu]; exact hv, hP'⟩

/-- A loop whose body respects a relation between states respects it too. -/
theorem forLoop_agree (R : Engine → Engine → Prop) (body : Nat → Engine → Option Engine)
    (hbody : ∀ k u v, R u v → agreeOpt R (body k u) (body k v)) (n : Nat) (e1 e2 : Engine)
    (h : R e1 e2) : agreeOpt R (forLoop n body e1) (forLoop n body e2) := by
  induction n with
  | zero => exact Or.inr ⟨e1, e2, rfl, rfl, h⟩
  | succ k ih =>
    rw [forLoop_succ, forLoop_succ]
    rcases ih with ⟨h1, h2⟩ | ⟨u, v, h1, h2, huv⟩
    · rw [h1, h2]; exact Or.inl ⟨rfl, rfl⟩
    · rw [h1, h2]; exact hbody k u v huv

/-! ## The camera -/

theorem psetWrite_congr {e1 e2 : Engine} (i ja cs ps col : Nat) {a : Nat}
    (h : e1.RAM a = e2.RAM a) :
    (psetWrite e1 i ja cs ps col).RAM a = (psetWrite e2 i ja cs ps col).RAM a := by
  by_cases h1 : a = ja <;> by_cases h2 : a = i
  · subst h1; subst h2; simp [psetWrite, h]
  · subst h1; simp [psetWrite, h, h2]
  · subst h2; simp [psetWrite, h, h1]
  · simp [psetWrite, h, h1, h2]

/-- `Pset` fails or succeeds independently of the memory contents, and each byte it
leaves depends only on the byte that was there. -/
theorem Pset_agree (S : Nat → Prop) (x y : Int) (col : Nat) (e1 e2 : Engine)
    (h : ∀ a, S a → e1.RAM a = e2.RAM a) :
    agreeOpt (fun u v => ∀ a, S a → u.RAM a = v.RAM a) (Pset e1 x y col) (Pset e2 x y col) := by
  rw [Pset_eq, Pset_eq]
  by_cases hok : psetOK x y
  · rw [if_pos hok, if_pos hok]
    exact Or.inr ⟨_, _, rfl, rfl, fun a ha => psetWrite_congr _ _ _ _ _ (h a ha)⟩
  · rw [if_neg hok, if_neg hok]
    exact Or.inl ⟨rfl, rfl⟩

theorem toInt_pair (b0 b1 : Nat) : toInt [b0, b1] = ((b0 <<< 8 ||| b1 : Nat) : Int) := by
  simp [toInt]

theorem byte_pair (n : Nat) (h : n < 65536) : (n / 256 % 256) <<< 8 ||| n % 256 = n := by
  rw [Nat.shiftLeft_eq, Nat.mul_comm,
    ← Nat.mul_add_lt_is_or (i := 8) (show n % 256 < 2 ^ 8 by omega)]
  omega

theorem toBytes2_natCast (n : Nat) : toBytes2 (n : Int) = [n / 256 % 256, n % 256] := by
  unfold toBytes2
  rw [Int.shiftRight_eq_div_pow]
  have h0 : (((2 : Nat) ^ 8 : Nat) : Int) = 256 := by norm_num
  rw [h0]
  have h1 : (((n : Int) / 256) % 256).toNat = n / 256 % 256 := by omega
  have h2 : ((n : Int) % 256).toNat = n % 256 := by omega
  rw [h1, h2]

/-- After `Camera(cx, cy)` with 16-bit offsets the draw routines read back `cx`, `cy`. -/
theorem camera_readback (e : Engine) (cx cy : Nat) (hx : cx < 65536) (hy : cy < 65536) :
    cameraX (Camera e cx cy) = cx ∧ cameraY (Camera e cx cy) = cy := by
  unfold cameraX cameraY Camera
  rw [toInt_pair, toInt_pair, toBytes2_natCast, toBytes2_natCast]
  simp only [Engine.write_RAM, List.getD_cons_zero, List.getD_cons_succ]
  norm_num
  exact ⟨byte_pair cx hx, byte_pair cy hy⟩

theorem Camera_RAM_of_lt (e : Engine) (x y : Int) {a : Nat} (h : a ≤ 0x3600) :
    (Camera e x y).RAM a = e.RAM a := by
  unfold Camera
  simp only [Engine.write_RAM]
  rw [if_neg (by omega), if_neg (by omega), if_neg (by omega), if_neg (by omega)]

/-! ## `RectFill` -/

/-- C8: for 16-bit camera offsets `(cx, cy)` and all `x, y, w, h, col`, starting from the
same memory, `Camera(cx, cy); RectFill(x+cx, y+cy, w, h, col)` and
`Camera(0, 0); RectFill(x, y, w, h, col)` either both fail or both succeed, and then
leave the same bytes in the bitplane region `0x0000 .. 0x3600`. The arguments `x+cx`
and `y+cy` are sums of Go `int`s, hence `wrap64`. -/
theorem Camera_shift_RectFill (e : Engine) (cx cy x y w h : Int) (col : Nat)
    (hcx : 0 ≤ cx ∧ cx < 65536) (hcy : 0 ≤ cy ∧ cy < 65536) :
    agreeOpt (fun e1 e2 => ∀ a, a ≤ 0x3600 → e1.RAM a = e2.RAM a)
      (RectFill (Camera e cx cy) (wrap64 (x + cx)) (wrap64 (y + cy)) w h col)
      (RectFill (Camera e 0 0) x y w h col) := by
  obtain ⟨hX, hY⟩ := camera_readback e cx.toNat cy.toNat (by omega) (by omega)
  obtain ⟨hX0, hY0⟩ := camera_readback e 0 0 (by decide) (by decide)
  rw [Int.toNat_of_nonneg hcx.1, Int.toNat_of_nonneg hcy.1] at hX hY
  rw [Nat.cast_zero] at hX0 hY0
  have hx1 : wrap64 (wrap64 (x + cx) - cx) = wrap64 (x - 0) := by unfold wrap64; omega
  have hy1 : wrap64 (wrap64 (y + cy) - cy) = wrap64 (y - 0) := by unfold wrap64; omega
  unfold RectFill
  simp only [hX, hY, hX0, hY0, hx1, hy1]
  apply forLoop_agree
  · intro r u v huv
    apply forLoop_agree
    · intro c u' v' huv'
      exact Pset_agree (fun a => a ≤ 0x3600) _ _ col u' v' huv'
    · exact huv
  · intro a ha
    rw [Camera_RAM_of_lt e cx cy ha, Camera_RAM_of_lt e 0 0 ha]

theorem Camera_shift_RectFill_witness :
    agreeOpt (fun e1 e2 => ∀ a, a ≤ 0x3600 → e1.RAM a = e2.RAM a)
      (RectFill (Camera zeroEngine 10 20) (wrap64 (0 + 10)) (wrap64 (0 + 20)) 5 5 Col3)
      (RectFill (Camera zeroEngine 0 0) 0 0 5 5 Col3) :=
  Camera_shift_RectFill zeroEngine 10 20 0 0 5 5 Col3 (by simp) (by simp)

/-- The loops of `RectFill` on a box with non-negative corner and extent, camera `(0, 0)`. -/
theorem RectFill_canvas_loops (e : Engine) (x y w h col : Nat)
    (hcx : cameraX e = 0) (hcy : cameraY e = 0) (hw : x + w ≤ 192) (hh : y + h ≤ 192) :
    RectFill e x y w h col =
      forLoop w (fun r => forLoop h (fun c e2 => Pset e2 ((r + x : Nat) : Int)
        ((c + y : Nat) : Int) col)) e := by
  unfold RectFill
  simp only [hcx, hcy, Int.toNat_ofNat]
  have hx1 : wrap64 ((x : Int) - 0) = x := by unfold wrap64; omega
  have hy1 : wrap64 ((y : Int) - 0) = y := by unfold wrap64; omega
  rw [hx1, hy1]
  apply forLoop_congr
  intro r hr u
  apply forLoop_congr
  intro c hc v
  have h1 : wrap64 ((r : Int) + (x : Int)) = ((r + x : Nat) : Int) := by
    unfold wrap64; omega
  have h2 : wrap64 ((c : Int) + (y : Int)) = ((c + y : Nat) : Int) := by
    unfold wrap64; omega
  rw [h1, h2]

/-- One column of `RectFill`: the inner loop sets the stored index of the pixels
`(px, y) .. (px, y+h-1)` and of no other canvas pixel. -/
theorem column_index (e : Engine) (px y h col : Nat) (hpx : px < 192) (hh : y + h ≤ 192) :
    ∃ e', forLoop h (fun c e2 => Pset e2 (px : Int) ((c + y : Nat) : Int) col) e = some e' ∧
      ∀ x' y', x' < 192 → y' < 192 →
        storedIndex e' x' y' =
          if x' = px ∧ y ≤ y' ∧ y' < y + h then col &&& 3 else storedIndex e x' y' := by
  apply forLoop_inv (fun k u => ∀ x' y', x' < 192 → y' < 192 →
    storedIndex u x' y' =
      if x' = px ∧ y ≤ y' ∧ y' < y + k then col &&& 3 else storedIndex e x' y')
  · intro x' y' _ _
    rw [if_neg (by omega)]
  · intro k u hk hu
    refine ⟨_, Pset_canvas u col hpx (show k + y < 192 by omega), ?_⟩
    intro x' y' hx' hy'
    rw [storedIndex_psetWrite u col hpx (show k + y < 192 by omega) hx' hy', hu x' y' hx' hy']
    by_cases h1 : x' = px ∧ y' = k + y
    · rw [if_pos h1, if_pos (by omega)]
    · rw [if_neg h1]
      by_cases h2 : x' = px ∧ y ≤ y' ∧ y' < y + k
      · rw [if_pos h2, if_pos (by omega)]
      · rw [if_neg h2, if_neg (by omega)]

/-- C9: with camera `(0, 0)`, `RectFill(x, y, w, h, col)` on a box inside the canvas
(`x + w ≤ 192`, `y + h ≤ 192`; in particular every box with `w ≥ 1`, `h ≥ 1`) succeeds,
every pixel of the box has stored index `col & 3` afterwards, and every canvas pixel
outside the box keeps its stored index. -/
theorem RectFill_index (e : Engine) (x y w h col : Nat)
    (hcx : cameraX e = 0) (hcy : cameraY e = 0) (hw : x + w ≤ 192) (hh : y + h ≤ 192) :
    ∃ e', RectFill e x y w h col = some e' ∧
      (∀ px py, x ≤ px → px < x + w → y ≤ py → py < y + h →
        storedIndex e' px py = col &&& 3) ∧
      ∀ px py, px < 192 → py < 192 → ¬ (x ≤ px ∧ px < x + w ∧ y ≤ py ∧ py < y + h) →
        storedIndex e' px py = storedIndex e px py := by
  rw [RectFill_canvas_loops e x y w h col hcx hcy hw hh]
  obtain ⟨e', he', hP⟩ := forLoop_inv (fun k u => ∀ x' y', x' < 192 → y' < 192 →
    storedIndex u x' y' =
      if (x ≤ x' ∧ x' < x + k) ∧ y ≤ y' ∧ y' < y + h then col &&& 3 else storedIndex e x' y')
    (fun r => forLoop h (fun c e2 => Pset e2 ((r + x : Nat) : Int) ((c + y : Nat) : Int) col))
    w e (by intro x' y' _ _; rw [if_neg (by omega)])
    (by
      intro k u hk hu
      obtain ⟨v, hv, hQ⟩ := column_index u (k + x) y h col (by omega) hh
      refine ⟨v, hv, ?_⟩
      intro x' y' hx' hy'
      rw [hQ x' y' hx' hy', hu x' y' hx' hy']
      by_cases h1 : x' = k + x ∧ y ≤ y' ∧ y' < y + h
      · rw [if_pos h1, if_pos (by omega)]
      · rw [if_neg h1]
        by_cases h2 : (x ≤ x' ∧ x' < x + k) ∧ y ≤ y' ∧ y' < y + h
        · rw [if_pos h2, if_pos (by omega)]
        · rw [if_neg h2, if_neg (by omega)])
  refine ⟨e', he', ?_, ?_⟩
  · intro px py h1 h2 h3 h4
    rw [hP px py (by omega) (by omega), if_pos (by omega)]
  · intro px py h1 h2 h3
    rw [hP px py h1 h2, if_neg (by omega)]

theorem RectFill_index_witness :
    ∃ e', RectFill zeroEngine (3 : Nat) (4 : Nat) (5 : Nat) (6 : Nat) Col2 = some e' ∧
      (∀ px py, 3 ≤ px → px < 3 + 5 → 4 ≤ py → py < 4 + 6 →
        storedIndex e' px py = Col2 &&& 3) ∧
      ∀ px py, px < 192 → py < 192 → ¬ (3 ≤ px ∧ px < 3 + 5 ∧ 4 ≤ py ∧ py < 4 + 6) →
        storedIndex e' px py = storedIndex zeroEngine px py :=
  RectFill_index zeroEngine 3 4 5 6 Col2 (by decide) (by decide) (by decide) (by decide)

/-- C10 (evaluation at the failing input): on the all-zero memory with camera `(0, 0)`,
`RectFill(0, 0, 2, 1, Col4)` leaves pixel `(0, 0)` with stored bank 0, although the
bank of `Col4` is 1: plotting `(1, 0)` cleared the bit of `(0, 0)`. -/
theorem RectFill_bank_Col4 :
    (RectFill zeroEngine 0 0 2 1 Col4).map (fun e => storedBank e 0 0) = some 0 ∧
      (Col4 >>> 2) &&& 1 = 1 := by
  decide

/-! ## `Rect` -/

theorem paintedBy_refl (e : Engine) (col : Nat) : paintedBy e e (fun _ _ => False) col :=
  fun _ _ _ _ => ⟨fun h => h.elim, fun _ => rfl⟩

theorem paintedBy_congr {e u : Engine} {S T : Nat → Nat → Prop} {col : Nat}
    (h : paintedBy e u S col) (hST : ∀ a b, a < 192 → b < 192 → (S a b ↔ T a b)) :
    paintedBy e u T col := by
  intro a b ha hb
  rw [← hST a b ha hb]
  exact h a b ha hb

/-- Plotting one more canvas pixel adds it to the painted set. -/
theorem paintedBy_Pset {e u : Engine} {S : Nat → Nat → Prop} {col : Nat}
    (h : paintedBy e u S col) (px py : Nat) (hx : px < 192) (hy : py < 192) :
    ∃ v, Pset u px py col = some v ∧
      paintedBy e v (fun a b => S a b ∨ (a = px ∧ b = py)) col := by
  refine ⟨_, Pset_canvas u col hx hy, ?_⟩
  intro a b ha hb
  rw [storedIndex_psetWrite u col hx hy ha hb]
  by_cases hp : a = px ∧ b = py
  · rw [if_pos hp]
    exact ⟨fun _ => rfl, fun hn => (hn (Or.inr hp)).elim⟩
  · rw [if_neg hp]
    refine ⟨fun hs => (h a b ha hb).1 (hs.resolve_right hp), fun hn => (h a b ha hb).2 ?_⟩
    exact fun hs => hn (Or.inl hs)

/-- The loops of `Rect` on a box inside the canvas, camera `(0, 0)`. -/
theorem Rect_canvas_loops (e : Engine) (x y w h col : Nat)
    (hcx : cameraX e = 0) (hcy : cameraY e = 0) (hw1 : 1 ≤ w) (hh1 : 1 ≤ h)
    (hw : x + w ≤ 192) (hh : y + h ≤ 192) :
    Rect e x y w h col =
      (forLoop w (fun r e2 =>
          (Pset e2 ((x + r : Nat) : Int) (y : Int) col).bind fun e3 =>
            Pset e3 ((x + r : Nat) : Int) ((y + (h - 1) : Nat) : Int) col) e).bind
        (forLoop h (fun c e2 =>
          (Pset e2 (x : Int) ((y + c : Nat) : Int) col).bind fun e3 =>
            Pset e3 ((x + (w - 1) : Nat) : Int) ((y + c : Nat) : Int) col)) := by
  unfold Rect
  simp only [hcx, hcy, Int.toNat_ofNat]
  have hx1 : wrap64 ((x : Int) - 0) = x := by unfold wrap64; omega
  have hy1 : wrap64 ((y : Int) - 0) = y := by unfold wrap64; omega
  have hb : wrap64 ((y : Int) + wrap64 ((h : Int) - 1)) = ((y + (h - 1) : Nat) : Int) := by
    unfold wrap64; omega
  have hr : wrap64 ((x : Int) + wrap64 ((w : Int) - 1)) = ((x + (w - 1) : Nat) : Int) := by
    unfold wrap64; omega
  rw [hx1, hy1, hb, hr]
  refine congrArg₂ Option.bind ?_ ?_
  · apply forLoop_congr
    intro r hr' u
    have h1 : wrap64 ((x : Int) + (r : Int)) = ((x + r : Nat) : Int) := by
      unfold wrap64; omega
    rw [h1]
  · funext u
    apply forLoop_congr
    intro c hc v
    have h2 : wrap64 ((y : Int) + (c : Int)) = ((y + c : Nat) : Int) := by
      unfold wrap64; omega
    rw [h2]

/-- What `Rect` paints on a box inside the canvas with `w ≥ 1`, `h ≥ 1`, camera `(0, 0)`:
the call succeeds and the painted pixels are those of the top and bottom rows (first
loop) and of the left and right columns (second loop). -/
theorem Rect_painted (e : Engine) (x y w h col : Nat)
    (hcx : cameraX e = 0) (hcy : cameraY e = 0) (hw1 : 1 ≤ w) (hh1 : 1 ≤ h)
    (hw : x + w ≤ 192) (hh : y + h ≤ 192) :
    ∃ e', Rect e x y w h col = some e' ∧
      paintedBy e e' (fun a b =>
        (x ≤ a ∧ a < x + w ∧ (b = y ∨ b = y + (h - 1))) ∨
          (y ≤ b ∧ b < y + h ∧ (a = x ∨ a = x + (w - 1)))) col := by
  rw [Rect_canvas_loops e x y w h col hcx hcy hw1 hh1 hw hh]
  -- first loop: top and bottom rows
  obtain ⟨e1, he1, hP1⟩ := forLoop_inv
    (fun k u => paintedBy e u (fun a b => x ≤ a ∧ a < x + k ∧ (b = y ∨ b = y + (h - 1))) col)
    (fun r e2 =>
      (Pset e2 ((x + r : Nat) : Int) (y : Int) col).bind fun e3 =>
        Pset e3 ((x + r : Nat) : Int) ((y + (h - 1) : Nat) : Int) col)
    w e (paintedBy_congr (paintedBy_refl e col)
      (by intro a b _ _; exact ⟨fun h' => h'.elim, fun h' => by omega⟩))
    (by
      intro k u hk hu
      obtain ⟨v1, hv1, hQ1⟩ := paintedBy_Pset hu (x + k) (y) (by omega) (by omega)
      obtain ⟨v2, hv2, hQ2⟩ := paintedBy_Pset hQ1 (x + k) (y + (h - 1))
        (by omega) (by omega)
      refine ⟨v2, by dsimp only; rw [hv1, Option.some_bind]; exact hv2, ?_⟩
      dsimp only
      refine paintedBy_congr hQ2 ?_
      intro a b _ _
      constructor <;> intro h' <;> omega)
  -- second loop: left and right columns
  obtain ⟨e2, he2, hP2⟩ := forLoop_inv
    (fun k u => paintedBy e u (fun a b =>
      (x ≤ a ∧ a < x + w ∧ (b = y ∨ b = y + (h - 1))) ∨
        (y ≤ b ∧ b < y + k ∧ (a = x ∨ a = x + (w - 1)))) col)
    (fun c e2 =>
      (Pset e2 (x : Int) ((y + c : Nat) : Int) col).bind fun e3 =>
        Pset e3 ((x + (w - 1) : Nat) : Int) ((y + c : Nat) : Int) col)
    h e1 (paintedBy_congr hP1 (by intro a b _ _; constructor <;> intro h' <;> omega))
    (by
      intro k u hk hu
      obtain ⟨v1, hv1, hQ1⟩ := paintedBy_Pset hu (x) (y + k) (by omega) (by omega)
      obtain ⟨v2, hv2, hQ2⟩ := paintedBy_Pset hQ1 (x + (w - 1)) (y + k)
        (by omega) (by omega)
      refine ⟨v2, by dsimp only; rw [hv1, Option.some_bind]; exact hv2, ?_⟩
      dsimp only
      refine paintedBy_congr hQ2 ?_
      intro a b _ _
      constructor <;> intro h' <;> omega)
  exact ⟨e2, by rw [he1]; exact he2, hP2⟩

/-- C11: with camera `(0, 0)`, `Rect(x, y, w, h, col)` on a box inside the canvas with
`w ≥ 1` and `h ≥ 1` succeeds; afterwards every pixel on the box's top row, bottom row,
left column or right column has stored index `col & 3`, and every other canvas pixel
(interior or outside the box) keeps the stored index it had. -/
theorem Rect_border (e : Engine) (x y w h col : Nat)
    (hcx : cameraX e = 0) (hcy : cameraY e = 0) (hw1 : 1 ≤ w) (hh1 : 1 ≤ h)
    (hw : x + w ≤ 192) (hh : y + h ≤ 192) :
    ∃ e', Rect e x y w h col = some e' ∧
      (∀ px py, x ≤ px → px < x + w → y ≤ py → py < y + h →
        (py = y ∨ py = y + h - 1 ∨ px = x ∨ px = x + w - 1) →
        storedIndex e' px py = col &&& 3) ∧
      ∀ px py, px < 192 → py < 192 →
        ¬ (x ≤ px ∧ px < x + w ∧ y ≤ py ∧ py < y + h ∧
          (py = y ∨ py = y + h - 1 ∨ px = x ∨ px = x + w - 1)) →
        storedIndex e' px py = storedIndex e px py := by
  obtain ⟨e2, he2, hP2⟩ := Rect_painted e x y w h col hcx hcy hw1 hh1 hw hh
  refine ⟨e2, he2, ?_, ?_⟩
  · intro px py h1 h2 h3 h4 h5
    exact (hP2 px py (by omega) (by omega)).1 (by omega)
  · intro px py h1 h2 h3
    exact (hP2 px py h1 h2).2 (by omega)

theorem Rect_border_witness :
    ∃ e', Rect zeroEngine (3 : Nat) (4 : Nat) (5 : Nat) (6 : Nat) Col2 = some e' ∧
      (∀ px py, 3 ≤ px → px < 3 + 5 → 4 ≤ py → py < 4 + 6 →
        (py = 4 ∨ py = 4 + 6 - 1 ∨ px = 3 ∨ px = 3 + 5 - 1) →
        storedIndex e' px py = Col2 &&& 3) ∧
      ∀ px py, px < 192 → py < 192 →
        ¬ (3 ≤ px ∧ px < 3 + 5 ∧ 4 ≤ py ∧ py < 4 + 6 ∧
          (py = 4 ∨ py = 4 + 6 - 1 ∨ px = 3 ∨ px = 3 + 5 - 1)) →
        storedIndex e' px py = storedIndex zeroEngine px py :=
  Rect_border zeroEngine 3 4 5 6 Col2 (by decide) (by decide) (by decide) (by decide)
    (by decide) (by decide)

/-! ## Registers: frame counter, palettes, background, camera -/

theorem byte_triple {b0 b1 b2 : Nat} (h1 : b1 < 256) (h2 : b2 < 256) :
    b0 <<< 16 ||| b1 <<< 8 ||| b2 = b0 * 65536 + b1 * 256 + b2 := by
  have e2 : 2 ^ 8 * b1 + b2 = 2 ^ 8 * b1 ||| b2 :=
    Nat.mul_add_lt_is_or (i := 8) (show b2 < 2 ^ 8 by omega) b1
  have e1 : 2 ^ 16 * b0 + (2 ^ 8 * b1 + b2) = 2 ^ 16 * b0 ||| (2 ^ 8 * b1 + b2) :=
    Nat.mul_add_lt_is_or (i := 16) (show 2 ^ 8 * b1 + b2 < 2 ^ 16 by omega) b0
  rw [Nat.shiftLeft_eq, Nat.shiftLeft_eq, Nat.or_assoc, Nat.mul_comm b0, Nat.mul_comm b1,
    ← e2, ← e1]
  omega

theorem toInt_triple (b0 b1 b2 : Nat) :
    toInt [b0, b1, b2] = ((b0 <<< 16 ||| b1 <<< 8 ||| b2 : Nat) : Int) := by
  simp [toInt]

/-- The frame counter read by `Frames` is the big-endian value of bytes `0x3607 .. 0x3609`. -/
theorem Frames_eq (e : Engine) :
    Frames e = ((e.RAM 0x3607 * 65536 + e.RAM 0x3608 * 256 + e.RAM 0x3609 : Nat) : Int) := by
  unfold Frames
  rw [toInt_triple, byte_triple (e.isByte _) (e.isByte _)]

theorem toBytes3_natCast (n : Nat) :
    toBytes3 (n : Int) = [n / 65536 % 256, n / 256 % 256, n % 256] := by
  unfold toBytes3
  rw [Int.shiftRight_eq_div_pow, Int.shiftRight_eq_div_pow]
  have h16 : (((2 : Nat) ^ 16 : Nat) : Int) = 65536 := by norm_num
  have h8 : (((2 : Nat) ^ 8 : Nat) : Int) = 256 := by norm_num
  rw [h16, h8]
  have h0 : (((n : Int) / 65536) % 256).toNat = n / 65536 % 256 := by omega
  have h1 : (((n : Int) / 256) % 256).toNat = n / 256 % 256 := by omega
  have h2 : ((n : Int) % 256).toNat = n % 256 := by omega
  rw [h0, h1, h2]

theorem addFrame_RAM (e : Engine) (a : Nat) :
    (addFrame e).RAM a =
      let f := e.RAM 0x3607 * 65536 + e.RAM 0x3608 * 256 + e.RAM 0x3609 + 1
      if a = 0x3609 then f % 256
      else if a = 0x3608 then f / 256 % 256
      else if a = 0x3607 then f / 65536 % 256
      else e.RAM a := by
  have hf := Frames_eq e
  unfold Frames at hf
  have h0 := e.isByte 0x3607
  have h1 := e.isByte 0x3608
  have h2 := e.isByte 0x3609
  have hw : wrap64 (((e.RAM 0x3607 * 65536 + e.RAM 0x3608 * 256 + e.RAM 0x3609 : Nat) : Int) + 1)
      = ((e.RAM 0x3607 * 65536 + e.RAM 0x3608 * 256 + e.RAM 0x3609 + 1 : Nat) : Int) := by
    unfold wrap64; omega
  unfold addFrame
  simp only [hf, hw, toBytes3_natCast, Engine.write_RAM, List.getD_cons_zero,
    List.getD_cons_succ, Nat.mod_mod]

theorem Frames_lt (e : Engine) : 0 ≤ Frames e ∧ Frames e < 2 ^ 24 := by
  have h0 := e.isByte 0x3607
  have h1 := e.isByte 0x3608
  have h2 := e.isByte 0x3609
  rw [Frames_eq]
  omega

/-- One call of `addFrame` adds one to the counter modulo `2^24`. -/
theorem Frames_addFrame (e : Engine) : Frames (addFrame e) = (Frames e + 1) % 2 ^ 24 := by
  have h0 := e.isByte 0x3607
  have h1 := e.isByte 0x3608
  have h2 := e.isByte 0x3609
  rw [Frames_eq, Frames_eq, addFrame_RAM, addFrame_RAM, addFrame_RAM]
  simp only [if_true, if_neg (show ¬ (0x3607 = 0x3609) by decide),
    if_neg (show ¬ (0x3607 = 0x3608) by decide), if_neg (show ¬ (0x3608 = 0x3609) by decide)]
  omega

theorem Frames_iterate (e : Engine) (n : Nat) :
    Frames (Nat.iterate addFrame n e) = (Frames e + n) % 2 ^ 24 := by
  induction n with
  | zero =>
    have h := Frames_lt e
    simp only [Function.iterate_zero, id_eq, Nat.cast_zero]
    omega
  | succ k ih =>
    rw [Function.iterate_succ_apply', Frames_addFrame, ih]
    push_cast
    omega

theorem addFrame_iterate_frame (e : Engine) (n a : Nat) (ha : a < 0x3607 ∨ 0x3609 < a) :
    (Nat.iterate addFrame n e).RAM a = e.RAM a := by
  induction n with
  | zero => rfl
  | succ k ih =>
    rw [Function.iterate_succ_apply', addFrame_RAM]
    simp only
    rw [if_neg (by omega), if_neg (by omega), if_neg (by omega), ih]

/-- C13: after `n` calls of `addFrame` the value of `Frames()` is `(f0 + n) mod 2^24`,
where `f0` is its value before; the counter is the big-endian value of bytes
`0x3607 .. 0x3609`; no other byte changes; and `2^24` calls starting from 0 give 0. -/
theorem addFrame_counter (e : Engine) (n : Nat) :
    Frames (Nat.iterate addFrame n e) = (Frames e + n) % 2 ^ 24 ∧
      (((Nat.iterate addFrame n e).RAM 0x3607 : Int) = Frames (Nat.iterate addFrame n e) / 65536 ∧
        ((Nat.iterate addFrame n e).RAM 0x3608 : Int)
          = Frames (Nat.iterate addFrame n e) / 256 % 256 ∧
        ((Nat.iterate addFrame n e).RAM 0x3609 : Int)
          = Frames (Nat.iterate addFrame n e) % 256) ∧
      (∀ a, a < 0x3607 ∨ 0x3609 < a → (Nat.iterate addFrame n e).RAM a = e.RAM a) ∧
      (Frames e = 0 → Frames (Nat.iterate addFrame (2 ^ 24) e) = 0) := by
  refine ⟨Frames_iterate e n, ?_, fun a ha => addFrame_iterate_frame e n a ha, ?_⟩
  · have h0 := (Nat.iterate addFrame n e).isByte 0x3607
    have h1 := (Nat.iterate addFrame n e).isByte 0x3608
    have h2 := (Nat.iterate addFrame n e).isByte 0x3609
    rw [Frames_eq]
    omega
  · intro hz
    rw [Frames_iterate, hz]
    norm_num

set_option maxRecDepth 1000000 in
theorem nibble_high : ∀ p : Fin 256, ∀ a : Fin 16,
    ((((p.val &&& 0b00001111) % 256) ||| ((a.val <<< 4) % 256)) % 256) >>> 4 = a.val ∧
      ((((p.val &&& 0b00001111) % 256) ||| ((a.val <<< 4) % 256)) % 256) &&& 0b00001111
        = p.val &&& 0b00001111 := by
  decide

set_option maxRecDepth 1000000 in
theorem nibble_low : ∀ p : Fin 256, ∀ b : Fin 16,
    ((((p.val &&& 0b11110000) % 256) ||| (b.val % 256)) % 256) &&& 0b00001111 = b.val ∧
      ((((p.val &&& 0b11110000) % 256) ||| (b.val % 256)) % 256) >>> 4 = p.val >>> 4 := by
  decide

theorem PalA_RAM (e : Engine) (pallet a : Nat) :
    (PalA e pallet).RAM a =
      if a = 0x3601 then
        (((e.RAM 0x3601 &&& 0b00001111) % 256) ||| ((pallet <<< 4) % 256)) % 256
      else e.RAM a := by
  by_cases h : a = 0x3601 <;> simp [PalA, h]

theorem PalB_RAM (e : Engine) (pallet a : Nat) :
    (PalB e pallet).RAM a =
      if a = 0x3601 then (((e.RAM 0x3601 &&& 0b11110000) % 256) ||| (pallet % 256)) % 256
      else e.RAM a := by
  by_cases h : a = 0x3601 <;> simp [PalB, h]

theorem PalA_nibbles (e : Engine) {a : Nat} (ha : a < 16) :
    (PalA e a).RAM 0x3601 >>> 4 = a ∧
      (PalA e a).RAM 0x3601 &&& 0b00001111 = e.RAM 0x3601 &&& 0b00001111 := by
  rw [PalA_RAM, if_pos rfl]
  exact nibble_high ⟨_, e.isByte _⟩ ⟨a, ha⟩

theorem PalB_nibbles (e : Engine) {b : Nat} (hb : b < 16) :
    (PalB e b).RAM 0x3601 &&& 0b00001111 = b ∧
      (PalB e b).RAM 0x3601 >>> 4 = e.RAM 0x3601 >>> 4 := by
  rw [PalB_RAM, if_pos rfl]
  exact nibble_low ⟨_, e.isByte _⟩ ⟨b, hb⟩

/-- C14: for palettes `a, b` in `0..15`, `PalA(a)` sets the high nibble of byte `0x3601`
to `a` and keeps its low nibble, `PalB(b)` sets the low nibble to `b` and keeps the high
nibble, neither changes another byte, and after both calls in either order `PalGet()`
returns `(a, b)`. -/
theorem Pal_registers (e : Engine) (a b : Nat) (ha : a < 16) (hb : b < 16) :
    ((PalA e a).RAM 0x3601 >>> 4 = a ∧
      (PalA e a).RAM 0x3601 &&& 0b00001111 = e.RAM 0x3601 &&& 0b00001111) ∧
    ((PalB e b).RAM 0x3601 &&& 0b00001111 = b ∧
      (PalB e b).RAM 0x3601 >>> 4 = e.RAM 0x3601 >>> 4) ∧
    (∀ addr, addr ≠ 0x3601 →
      (PalA e a).RAM addr = e.RAM addr ∧ (PalB e b).RAM addr = e.RAM addr) ∧
    PalGet (PalB (PalA e a) b) = (a, b) ∧ PalGet (PalA (PalB e b) a) = (a, b) := by
  refine ⟨PalA_nibbles e ha, PalB_nibbles e hb, ?_, ?_, ?_⟩
  · intro addr h
    rw [PalA_RAM, PalB_RAM, if_neg h, if_neg h]
    exact ⟨rfl, rfl⟩
  · unfold PalGet
    rw [(PalB_nibbles (PalA e a) hb).1, (PalB_nibbles (PalA e a) hb).2, (PalA_nibbles e ha).1]
  · unfold PalGet
    rw [(PalA_nibbles (PalB e b) ha).1, (PalA_nibbles (PalB e b) ha).2, (PalB_nibbles e hb).1]

theorem Pal_registers_witness :
    ((PalA zeroEngine 9).RAM 0x3601 >>> 4 = 9 ∧
      (PalA zeroEngine 9).RAM 0x3601 &&& 0b00001111 = zeroEngine.RAM 0x3601 &&& 0b00001111) ∧
    ((PalB zeroEngine 6).RAM 0x3601 &&& 0b00001111 = 6 ∧
      (PalB zeroEngine 6).RAM 0x3601 >>> 4 = zeroEngine.RAM 0x3601 >>> 4) ∧
    (∀ addr, addr ≠ 0x3601 →
      (PalA zeroEngine 9).RAM addr = zeroEngine.RAM addr ∧
        (PalB zeroEngine 6).RAM addr = zeroEngine.RAM addr) ∧
    PalGet (PalB (PalA zeroEngine 9) 6) = (9, 6) ∧ PalGet (PalA (PalB zeroEngine 6) 9) = (9, 6) :=
  Pal_registers zeroEngine 9 6 (by decide) (by decide)

set_option maxRecDepth 1000000 in
theorem bg_bits : ∀ p : Fin 256, ∀ c : Fin 8,
    ((((p.val &&& 0b00011111) % 256) ||| ((c.val <<< 5) % 256)) % 256) >>> 5 = c.val ∧
      ((((p.val &&& 0b00011111) % 256) ||| ((c.val <<< 5) % 256)) % 256) &&& 0b00011111
        = p.val &&& 0b00011111 := by
  decide

theorem BG_RAM (e : Engine) (col a : Nat) :
    (BG e col).RAM a =
      if a = 0x3602 then
        (((e.RAM 0x3602 &&& 0b00011111) % 256) ||| ((col <<< 5) % 256)) % 256
      else e.RAM a := by
  by_cases h : a = 0x3602 <;> simp [BG, h]

theorem shl5_mod (col : Nat) : (col <<< 5) % 256 = ((col % 8) <<< 5) % 256 := by
  rw [Nat.shiftLeft_eq, Nat.shiftLeft_eq]
  omega

theorem and7_eq_mod (col : Nat) : col &&& 7 = col % 8 :=
  Nat.and_pow_two_sub_one_eq_mod col 3

/-- C15: `BG(col)` sets bits 7-5 of byte `0x3602` to `col & 7`, leaves bits 4-0 of that
byte as they were, and changes no other byte. -/
theorem BG_register (e : Engine) (col : Nat) :
    (BG e col).RAM 0x3602 >>> 5 = col &&& 7 ∧
      (BG e col).RAM 0x3602 &&& 0b00011111 = e.RAM 0x3602 &&& 0b00011111 ∧
      ∀ a, a ≠ 0x3602 → (BG e col).RAM a = e.RAM a := by
  refine ⟨?_, ?_, ?_⟩
  · rw [BG_RAM, if_pos rfl, shl5_mod, and7_eq_mod]
    exact (bg_bits ⟨_, e.isByte _⟩ ⟨col % 8, Nat.mod_lt _ (by decide)⟩).1
  · rw [BG_RAM, if_pos rfl, shl5_mod]
    exact (bg_bits ⟨_, e.isByte _⟩ ⟨col % 8, Nat.mod_lt _ (by decide)⟩).2
  · intro a h
    rw [BG_RAM, if_neg h]

theorem toBytes2_eq (x : Int) :
    toBytes2 x = [(x % 65536 / 256).toNat, (x % 65536 % 256).toNat] := by
  unfold toBytes2
  rw [Int.shiftRight_eq_div_pow]
  have h8 : (((2 : Nat) ^ 8 : Nat) : Int) = 256 := by norm_num
  rw [h8]
  have h1 : x / 256 % 256 = x % 65536 / 256 := by omega
  have h2 : x % 256 = x % 65536 % 256 := by omega
  rw [h1, h2]

theorem Camera_RAM (e : Engine) (x y : Int) (a : Nat) :
    (Camera e x y).RAM a =
      if a = 0x3606 then (y % 65536 % 256).toNat
      else if a = 0x3605 then (y % 65536 / 256).toNat
      else if a = 0x3604 then (x % 65536 % 256).toNat
      else if a = 0x3603 then (x % 65536 / 256).toNat
      else e.RAM a := by
  have hx1 : (x % 65536 / 256).toNat % 256 = (x % 65536 / 256).toNat := by omega
  have hx2 : (x % 65536 % 256).toNat % 256 = (x % 65536 % 256).toNat := by omega
  have hy1 : (y % 65536 / 256).toNat % 256 = (y % 65536 / 256).toNat := by omega
  have hy2 : (y % 65536 % 256).toNat % 256 = (y % 65536 % 256).toNat := by omega
  unfold Camera
  simp only [toBytes2_eq, Engine.write_RAM, List.getD_cons_zero, List.getD_cons_succ,
    hx1, hx2, hy1, hy2]

theorem pair_value (v : Int) (h0 : 0 ≤ v) (h1 : v < 65536) :
    (((v / 256).toNat <<< 8 ||| (v % 256).toNat : Nat) : Int) = v := by
  have hb := byte_pair v.toNat (by omega)
  have e1 : (v / 256).toNat = v.toNat / 256 % 256 := by omega
  have e2 : (v % 256).toNat = v.toNat % 256 := by omega
  rw [e1, e2, hb]
  omega

/-- C16: for all integers `x`, `y`, `Camera(x, y)` stores `x mod 2^16` big-endian in bytes
`0x3603 .. 0x3604` and `y mod 2^16` big-endian in bytes `0x3605 .. 0x3606`, changes no
other byte, and the offsets the draw routines read back are `x mod 65536`, `y mod 65536`. -/
theorem Camera_storage (e : Engine) (x y : Int) :
    (((Camera e x y).RAM 0x3603 : Int) = x % 65536 / 256 ∧
      ((Camera e x y).RAM 0x3604 : Int) = x % 65536 % 256) ∧
    (((Camera e x y).RAM 0x3605 : Int) = y % 65536 / 256 ∧
      ((Camera e x y).RAM 0x3606 : Int) = y % 65536 % 256) ∧
    (∀ a, a < 0x3603 ∨ 0x3606 < a → (Camera e x y).RAM a = e.RAM a) ∧
    cameraX (Camera e x y) = x % 65536 ∧ cameraY (Camera e x y) = y % 65536 := by
  have r3 : (Camera e x y).RAM 0x3603 = (x % 65536 / 256).toNat := by
    rw [Camera_RAM]; simp only [if_neg (show ¬ (0x3603 = 0x3606) by decide),
      if_neg (show ¬ (0x3603 = 0x3605) by decide), if_neg (show ¬ (0x3603 = 0x3604) by decide),
      if_true]
  have r4 : (Camera e x y).RAM 0x3604 = (x % 65536 % 256).toNat := by
    rw [Camera_RAM]; simp only [if_neg (show ¬ (0x3604 = 0x3606) by decide),
      if_neg (show ¬ (0x3604 = 0x3605) by decide), if_true]
  have r5 : (Camera e x y).RAM 0x3605 = (y % 65536 / 256).toNat := by
    rw [Camera_RAM]; simp only [if_neg (show ¬ (0x3605 = 0x3606) by decide), if_true]
  have r6 : (Camera e x y).RAM 0x3606 = (y % 65536 % 256).toNat := by
    rw [Camera_RAM]; simp only [if_true]
  refine ⟨⟨?_, ?_⟩, ⟨?_, ?_⟩, ?_, ?_, ?_⟩
  · rw [r3]; omega
  · rw [r4]; omega
  · rw [r5]; omega
  · rw [r6]; omega
  · intro a ha
    rw [Camera_RAM, if_neg (by omega), if_neg (by omega), if_neg (by omega), if_neg (by omega)]
  · unfold cameraX
    rw [toInt_pair, r3, r4]
    exact pair_value _ (by omega) (by omega)
  · unfold cameraY
    rw [toInt_pair, r5, r6]
    exact pair_value _ (by omega) (by omega)

/-! ## `LoadSprs` -/

theorem copyLoop_RAM (base n : Nat) (src : Nat → Nat) (e : Engine) (a : Nat) :
    (copyLoop base n src e).RAM a =
      if base ≤ a ∧ a < base + n then src (a - base) % 256 else e.RAM a := by
  induction n with
  | zero => simp only [copyLoop]; rw [if_neg (by omega)]
  | succ k ih =>
    simp only [copyLoop, Engine.write_RAM, ih]
    by_cases h1 : a = k + base
    · rw [if_pos h1, if_pos (by omega)]
      have : a - base = k := by omega
      rw [this]
    · rw [if_neg h1]
      by_cases h2 : base ≤ a ∧ a < base + k
      · rw [if_pos h2, if_pos (by omega)]
      · rw [if_neg h2, if_neg (by omega)]

/-- C17: after `LoadSprs(sheet)` byte `0x3F49 + i` holds `sheet[i]` for every
`0 ≤ i < 0x3000`, and every byte outside `0x3F49 .. 0x6F48` is unchanged. -/
theorem LoadSprs_copies (e : Engine) (sheet : Fin 0x3000 → Fin 256) :
    (∀ i : Fin 0x3000, (LoadSprs e sheet).RAM (0x3F49 + i.val) = (sheet i).val) ∧
      ∀ a, a < 0x3F49 ∨ 0x6F48 < a → (LoadSprs e sheet).RAM a = e.RAM a := by
  constructor
  · intro i
    have hi := i.isLt
    unfold LoadSprs
    rw [copyLoop_RAM, if_pos (by omega)]
    have : 0x3F49 + i.val - 0x3F49 = i.val := by omega
    rw [this]
    unfold sheetAt
    rw [dif_pos hi]
    exact Nat.mod_eq_of_lt (sheet i).isLt
  · intro a ha
    unfold LoadSprs
    rw [copyLoop_RAM, if_neg (by omega)]

/-! ## The flag conversion tool -/

/-- C18 (evaluation at the failing input): `stringToByte` shifts once more after the
last digit, so `"00000001"` gives `0x02` and `"11111111"` gives `0xFE`, and the table
built from `"00000001,11111111"` starts `0x02, 0xFE`. -/
theorem stringToByte_one_and_ones :
    stringToByte "00000001" = .ok 0x02 ∧ stringToByte "11111111" = .ok 0xFE ∧
      (convTable "00000001,11111111").toOption.map (fun t => t.take 2) = some [0x02, 0xFE] :=
  ⟨rfl, rfl, rfl⟩

/-- The loop of `stringToByte` fails exactly on a character other than `0` and `1`,
and then with the `notBinary` error. -/
theorem stringToByteLoop_spec (s : String) (cs : List Char) (ret : Nat) :
    ((∀ c ∈ cs, c = '0' ∨ c = '1') → ∃ v, stringToByteLoop s cs ret = .ok v) ∧
      ((∃ c ∈ cs, c ≠ '0' ∧ c ≠ '1') → stringToByteLoop s cs ret = .error (.notBinary s)) := by
  induction cs generalizing ret with
  | nil =>
    exact ⟨fun _ => ⟨ret, rfl⟩, fun ⟨c, hc, _⟩ => by cases hc⟩
  | cons c cs ih =>
    by_cases hbad : c ≠ '0' ∧ c ≠ '1'
    · constructor
      · intro hall
        rcases hall c (List.mem_cons_self c cs) with h | h
        · exact (hbad.1 h).elim
        · exact (hbad.2 h).elim
      · intro _
        simp only [stringToByteLoop, if_pos hbad]
    · simp only [stringToByteLoop, if_neg hbad]
      constructor
      · intro hall
        exact (ih _).1 (fun d hd => hall d (List.mem_cons_of_mem c hd))
      · rintro ⟨d, hd, hdbad⟩
        rcases List.mem_cons.1 hd with h | h
        · exact (hbad (h ▸ hdbad)).elim
        · exact (ih _).2 ⟨d, h, hdbad⟩

/-- C19: `stringToByte(s)` returns an error exactly when `s` is not 8 bytes long or
contains a character other than `0` and `1`; the length is checked first, so a string
that is not 8 bytes long fails with the `notEightLong` error whatever its characters
(and a string of 8 bytes with another character fails with the `notBinary` error). -/
theorem stringToByte_error_iff (s : String) :
    ((∃ err, stringToByte s = .error err) ↔
        (s.utf8ByteSize ≠ 8 ∨ ∃ c ∈ s.data, c ≠ '0' ∧ c ≠ '1')) ∧
      (s.utf8ByteSize ≠ 8 → stringToByte s = .error (.notEightLong s)) ∧
      (s.utf8ByteSize = 8 → (∃ c ∈ s.data, c ≠ '0' ∧ c ≠ '1') →
        stringToByte s = .error (.notBinary s)) := by
  have hlen : s.utf8ByteSize ≠ 8 → stringToByte s = .error (.notEightLong s) := by
    intro h
    simp only [stringToByte, if_pos h]
  have hbin : s.utf8ByteSize = 8 → (∃ c ∈ s.data, c ≠ '0' ∧ c ≠ '1') →
      stringToByte s = .error (.notBinary s) := by
    intro h hc
    simp only [stringToByte, if_neg (not_not.2 h)]
    exact (stringToByteLoop_spec s s.data 0).2 hc
  refine ⟨⟨?_, ?_⟩, hlen, hbin⟩
  · rintro ⟨err, herr⟩
    by_cases h8 : s.utf8ByteSize = 8
    · right
      by_contra hno
      have hall : ∀ c ∈ s.data, c = '0' ∨ c = '1' := by
        intro c hc
        by_contra hcn
        exact hno ⟨c, hc, fun h => hcn (Or.inl h), fun h => hcn (Or.inr h)⟩
      obtain ⟨v, hv⟩ := (stringToByteLoop_spec s s.data 0).1 hall
      simp only [stringToByte, if_neg (not_not.2 h8), hv] at herr
      cases herr
    · exact Or.inl h8
  · intro h
    by_cases h8 : s.utf8ByteSize = 8
    · rcases h with h | h
      · exact (h h8).elim
      · exact ⟨_, hbin h8 h⟩
    · exact ⟨_, hlen h8⟩

theorem getD_set_eq (l : List Nat) (i j b : Nat) :
    (l.set i b).getD j 0 = if j = i ∧ i < l.length then b else l.getD j 0 := by
  rw [List.getD_eq_getElem?_getD, List.getD_eq_getElem?_getD, List.getElem?_set]
  by_cases hij : i = j
  · subst hij
    by_cases hl : i < l.length
    · simp [hl]
    · simp [hl, List.getElem?_eq_none (Nat.le_of_not_lt hl)]
  · have hji : ¬ j = i := fun h => hij h.symm
    simp [hij, hji]

/-- The loop of `convertFlag` fails with the error of the first rejected entry. -/
theorem convLoop_error (entries : List String) (i : Nat) (conv : List Nat) (k : Nat)
    (err : FlagError) (hk : k < entries.length)
    (hbefore : ∀ j, j < k → ∃ b, stringToByte (entries.getD j "") = .ok b)
    (hat : stringToByte (entries.getD k "") = .error err) :
    convLoop entries i conv = .error err := by
  induction entries generalizing i conv k with
  | nil => cases hk
  | cons s rest ih =>
    cases k with
    | zero =>
      rw [List.getD_cons_zero] at hat
      simp only [convLoop, hat]
    | succ k =>
      obtain ⟨b, hb⟩ := hbefore 0 (Nat.succ_pos k)
      rw [List.getD_cons_zero] at hb
      simp only [convLoop, hb]
      refine ih (i + 1) (conv.set i b) k (Nat.lt_of_succ_lt_succ hk) ?_ ?_
      · intro j hj
        have := hbefore (j + 1) (Nat.succ_lt_succ hj)
        rwa [List.getD_cons_succ] at this
      · rwa [List.getD_cons_succ] at hat

/-- When every entry is accepted the loop of `convertFlag` stores the value of entry
`k` at index `i + k` and leaves every other entry of `conv` as it was. -/
theorem convLoop_ok (entries : List String) (i : Nat) (conv : List Nat)
    (hall : ∀ s ∈ entries, ∃ b, stringToByte s = .ok b)
    (hfit : i + entries.length ≤ conv.length) :
    ∃ conv', convLoop entries i conv = .ok conv' ∧ conv'.length = conv.length ∧
      (∀ k, k < entries.length →
        stringToByte (entries.getD k "") = .ok (conv'.getD (i + k) 0)) ∧
      ∀ j, j < i ∨ i + entries.length ≤ j → conv'.getD j 0 = conv.getD j 0 := by
  induction entries generalizing i conv with
  | nil => exact ⟨conv, rfl, rfl, fun k hk => absurd hk (Nat.not_lt_zero k), fun _ _ => rfl⟩
  | cons s rest ih =>
    obtain ⟨b, hb⟩ := hall s (List.mem_cons_self s rest)
    rw [List.length_cons] at hfit
    obtain ⟨conv', h1, h2, h3, h4⟩ := ih (i + 1) (conv.set i b)
      (fun t ht => hall t (List.mem_cons_of_mem s ht))
      (by rw [List.length_set]; omega)
    rw [List.length_set] at h2
    refine ⟨conv', by simp only [convLoop, hb]; exact h1, h2, ?_, ?_⟩
    · intro k hk
      cases k with
      | zero =>
        rw [List.getD_cons_zero, hb, Nat.add_zero, h4 i (Or.inl (Nat.lt_succ_self i)),
          getD_set_eq, if_pos ⟨rfl, by omega⟩]
      | succ k =>
        rw [List.getD_cons_succ, h3 k (Nat.lt_of_succ_lt_succ hk)]
        have : i + 1 + k = i + (k + 1) := by omega
        rw [this]
    · intro j hj
      rw [List.length_cons] at hj
      rw [h4 j (by omega), getD_set_eq, if_neg (by omega)]

/-- C20: with `entries` the pieces of the file content between commas, `convertFlag`
fails with the too-many-entries error when there are more than 512 of them, fails with
the error of the first rejected entry when `stringToByte` rejects one, and in both
cases produces no content; otherwise it builds a table of exactly 512 bytes whose entry
`i` is the value of `stringToByte` on entry `i` and whose remaining entries are 0, and
the content written is the rendering of that table. -/
theorem convertFlag_all_or_nothing (printByte : Nat → String) (file : String) :
    (512 < (splitComma file).length →
      convertFlag printByte file = .error .tooManyEntries) ∧
    ((splitComma file).length ≤ 512 → ∀ k err, k < (splitComma file).length →
      (∀ j, j < k → ∃ b, stringToByte ((splitComma file).getD j "") = .ok b) →
      stringToByte ((splitComma file).getD k "") = .error err →
      convertFlag printByte file = .error err) ∧
    ((splitComma file).length ≤ 512 →
      (∀ s ∈ splitComma file, ∃ b, stringToByte s = .ok b) →
      ∃ conv, convTable file = .ok conv ∧ conv.length = 512 ∧
        (∀ i, i < (splitComma file).length →
          stringToByte ((splitComma file).getD i "") = .ok (conv.getD i 0)) ∧
        (∀ i, (splitComma file).length ≤ i → i < 512 → conv.getD i 0 = 0) ∧
        convertFlag printByte file = .ok (flagContent printByte conv)) := by
  refine ⟨?_, ?_, ?_⟩
  · intro h
    simp only [convertFlag, convTable, gt_iff_lt, if_pos h]
  · intro h k err hk hbefore hat
    have hle : ¬ (512 < (splitComma file).length) := by omega
    simp only [convertFlag, convTable, gt_iff_lt, if_neg hle,
      convLoop_error (splitComma file) 0 (List.replicate 512 0) k err hk hbefore hat]
  · intro h hall
    have hle : ¬ (512 < (splitComma file).length) := by omega
    obtain ⟨conv, h1, h2, h3, h4⟩ := convLoop_ok (splitComma file) 0 (List.replicate 512 0)
      hall (by rw [List.length_replicate]; omega)
    rw [List.length_replicate] at h2
    refine ⟨conv, by simp only [convTable, gt_iff_lt, if_neg hle]; exact h1, h2, ?_, ?_, ?_⟩
    · intro i hi
      have := h3 i hi
      rwa [Nat.zero_add] at this
    · intro i hi1 hi2
      rw [h4 i (Or.inr (by omega)), List.getD_eq_getElem?_getD,
        List.getElem?_replicate, if_pos hi2]
      rfl
    · simp only [convertFlag, convTable, gt_iff_lt, if_neg hle, h1]

/-! ## `Line` -/

theorem round64_zero : round64 0 = 0 := by simp [round64]

theorem f64sub_self (a : ℚ) : f64sub a a = 0 := by
  unfold f64sub; rw [sub_self, round64_zero]

theorem f64div_zero_left (b : ℚ) : f64div 0 b = 0 := by
  unfold f64div; rw [zero_div, round64_zero]

theorem f64mul_zero_left (b : ℚ) : f64mul 0 b = 0 := by
  unfold f64mul; rw [zero_mul, round64_zero]

theorem f64toInt_zero : f64toInt 0 = 0 := by
  simp [f64toInt]

/-- The loop of `Line` on a left-to-right horizontal segment of the canvas, camera `(0, 0)`:
the slope `dh` is 0 and column `x1 + k` is plotted in row `y`. -/
theorem Line_horizontal_loop (e : Engine) (x1 x2 y col : Nat)
    (hcx : cameraX e = 0) (hcy : cameraY e = 0) (h12 : x1 < x2) (h2 : x2 ≤ 192)
    (hy192 : y < 192) :
    Line e x1 y x2 y col =
      forLoop (x2 - x1) (fun k e2 => Pset e2 ((x1 + k : Nat) : Int) (y : Int) col) e := by
  have hx1 : wrap64 ((x1 : Int) - 0) = x1 := by unfold wrap64; omega
  have hx2 : wrap64 ((x2 : Int) - 0) = x2 := by unfold wrap64; omega
  have hy : wrap64 ((y : Int) - 0) = y := by unfold wrap64; omega
  have hlt : ¬ ((x2 : Int) < (x1 : Int)) := by omega
  have hw : wrap64 ((x2 : Int) - (x1 : Int)) = (x2 : Int) - (x1 : Int) := by
    unfold wrap64; omega
  have hpos : (0 : Int) < (x2 : Int) - (x1 : Int) := by omega
  have hy0 : wrap64 ((y : Int) + 0) = y := by unfold wrap64; omega
  have hn : ((x2 : Int) - (x1 : Int)).toNat = x2 - x1 := by omega
  unfold Line
  simp only [hcx, hcy, hx1, hx2, hy, if_neg hlt, hw, if_pos hpos, f64sub_self,
    f64div_zero_left, f64mul_zero_left, f64toInt_zero, hy0, hn]
  apply forLoop_congr
  intro k _ u
  push_cast
  rfl

/-- C12: with camera `(0, 0)`, for a row `y < 192` and columns `x1 < x2 ≤ 192`,
`Line(x1, y, x2, y, col)` succeeds, sets the stored index of the pixels
`(x1, y) .. (x2-1, y)` to `col & 3`, and leaves the stored index of every other canvas
pixel, the end point `(x2, y)` included, as it was. -/
theorem Line_horizontal (e : Engine) (x1 x2 y col : Nat)
    (hcx : cameraX e = 0) (hcy : cameraY e = 0) (h12 : x1 < x2) (h2 : x2 ≤ 192)
    (hy : y < 192) :
    ∃ e', Line e x1 y x2 y col = some e' ∧
      (∀ px, x1 ≤ px → px < x2 → storedIndex e' px y = col &&& 3) ∧
      ∀ px py, px < 192 → py < 192 → ¬ (py = y ∧ x1 ≤ px ∧ px < x2) →
        storedIndex e' px py = storedIndex e px py := by
  rw [Line_horizontal_loop e x1 x2 y col hcx hcy h12 h2 hy]
  obtain ⟨e1, he1, hP⟩ := forLoop_inv
    (fun k u => paintedBy e u (fun a b => b = y ∧ x1 ≤ a ∧ a < x1 + k) col)
    (fun k e2 => Pset e2 ((x1 + k : Nat) : Int) (y : Int) col)
    (x2 - x1) e
    (paintedBy_congr (paintedBy_refl e col)
      (by intro a b _ _; exact ⟨fun h' => h'.elim, fun h' => by omega⟩))
    (by
      intro k u hk hu
      obtain ⟨v, hv, hQ⟩ := paintedBy_Pset hu (x1 + k) y (by omega) hy
      refine ⟨v, hv, ?_⟩
      dsimp only
      refine paintedBy_congr hQ ?_
      intro a b _ _
      constructor <;> intro h' <;> omega)
  refine ⟨e1, he1, ?_, ?_⟩
  · intro px h1 h3
    exact (hP px y (by omega) hy).1 (by omega)
  · intro px py h1 h3 h4
    exact (hP px py h1 h3).2 (by omega)

theorem Line_horizontal_witness :
    ∃ e', Line zeroEngine (0 : Nat) (0 : Nat) (10 : Nat) (0 : Nat) Col3 = some e' ∧
      (∀ px, 0 ≤ px → px < 10 → storedIndex e' px 0 = Col3 &&& 3) ∧
      ∀ px py, px < 192 → py < 192 → ¬ (py = 0 ∧ 0 ≤ px ∧ px < 10) →
        storedIndex e' px py = storedIndex zeroEngine px py :=
  Line_horizontal zeroEngine 0 10 0 Col3 (by decide) (by decide) (by decide) (by decide)
    (by decide)

theorem roundHalfEven_intCast (z : Int) : roundHalfEven (z : ℚ) = z := by
  unfold roundHalfEven
  simp

/-- Integers of magnitude below `2^53` are `float64` values: rounding keeps them. -/
theorem round64_intCast (n : Int) (h : |n| < 2 ^ 53) : round64 (n : ℚ) = n := by
  by_cases h0 : n = 0
  · subst h0; simp [round64]
  · have hq : (n : ℚ) ≠ 0 := by exact_mod_cast h0
    have habs : |(n : ℚ)| = ((n.natAbs : ℕ) : ℚ) := by
      rw [← Int.cast_abs, Int.abs_eq_natAbs, Int.cast_natCast]
    have hL : Nat.log 2 n.natAbs < 53 := by
      apply Nat.log_lt_of_lt_pow (Int.natAbs_ne_zero.2 h0)
      have : ((n.natAbs : ℕ) : Int) < 2 ^ 53 := by rw [← Int.abs_eq_natAbs]; exact h
      exact_mod_cast this
    unfold round64
    rw [if_neg hq, habs, Int.log_natCast]
    obtain ⟨d, hd⟩ : ∃ d : ℕ, (Nat.log 2 n.natAbs : Int) - 52 = -(d : Int) :=
      ⟨52 - Nat.log 2 n.natAbs, by omega⟩
    simp only [hd, zpow_neg, zpow_natCast]
    have hdiv : (n : ℚ) / ((2 : ℚ) ^ d)⁻¹ = ((n * 2 ^ d : Int) : ℚ) := by
      rw [div_inv_eq_mul]; push_cast; rfl
    rw [hdiv, roundHalfEven_intCast]
    push_cast
    field_simp

/-! ## Memory layout -/

/-- C21 (counterexample): the memory block has `0xFFFF` bytes, not 65536, and the address
`0xFFFF` is not a valid index: reading it is a run-time error. -/
theorem RAM_address_FFFF_invalid :
    RAMSize ≠ 65536 ∧ ¬ inRAM 0xFFFF ∧ zeroEngine.load 0xFFFF = none := by
  decide

/-- C21 (amended): the memory block `RAM` holds exactly 65535 (`0xFFFF`) bytes; an index is
valid, i.e. a read or a write at it succeeds, exactly when it lies in `0x0000 .. 0xFFFE`. -/
theorem RAM_size (e : Engine) (i : Int) (v : Nat) :
    RAMSize = 65535 ∧ (inRAM i ↔ 0 ≤ i ∧ i ≤ 0xFFFE) ∧
      ((e.load i).isSome ↔ 0 ≤ i ∧ i ≤ 0xFFFE) ∧
      ((e.store i v).isSome ↔ 0 ≤ i ∧ i ≤ 0xFFFE) := by
  have hin : inRAM i ↔ 0 ≤ i ∧ i ≤ 0xFFFE := by
    unfold inRAM RAMSize
    omega
  refine ⟨rfl, hin, ?_, ?_⟩
  · unfold Engine.load
    by_cases h : inRAM i
    · simp only [if_pos h, Option.isSome_some, true_iff]; exact hin.1 h
    · simp only [if_neg h, Option.isSome_none, Bool.false_eq_true, false_iff]
      exact fun h' => h (hin.2 h')
  · unfold Engine.store
    by_cases h : inRAM i
    · simp only [if_pos h, Option.isSome_some, true_iff]; exact hin.1 h
    · simp only [if_neg h, Option.isSome_none, Bool.false_eq_true, false_iff]
      exact fun h' => h (hin.2 h')

/-- C22 (counterexample): the canvas pixel `(184, 191)` has its bank bit in the byte at
`0x2401 + 184/8 + 191*24 = 0x3600`, above `0x35FF`. -/
theorem palAddr_last_row :
    palAddr 184 191 = 0x3600 ∧ ¬ (0x2401 + 184 / 8 + 191 * 24 ≤ 0x35FF) := by
  decide

/-- C22 (amended): for every canvas pixel the colour-plane byte that `Pset` and `Pget`
address is `x/4 + y*48` and lies in `0x0000 .. 0x23FF`, and the palette-plane byte they
address is `0x2401 + x/8 + y*24` and lies in `0x2401 .. 0x3600`. -/
theorem bitplane_address_ranges (x y : Nat) (hx : x < 192) (hy : y < 192) :
    pixAddr x y = ((x / 4 + y * 48 : Nat) : Int) ∧ x / 4 + y * 48 ≤ 0x23FF ∧
      palAddr x y = ((0x2401 + x / 8 + y * 24 : Nat) : Int) ∧
      0x2401 ≤ 0x2401 + x / 8 + y * 24 ∧ 0x2401 + x / 8 + y * 24 ≤ 0x3600 :=
  ⟨pixAddr_canvas hx hy, by omega, palAddr_canvas hx hy, by omega, by omega⟩

theorem bitplane_address_ranges_witness :
    pixAddr (191 : Nat) (191 : Nat) = ((191 / 4 + 191 * 48 : Nat) : Int) ∧
      191 / 4 + 191 * 48 ≤ 0x23FF ∧
      palAddr (191 : Nat) (191 : Nat) = ((0x2401 + 191 / 8 + 191 * 24 : Nat) : Int) ∧
      0x2401 ≤ 0x2401 + 191 / 8 + 191 * 24 ∧ 0x2401 + 191 / 8 + 191 * 24 ≤ 0x3600 :=
  bitplane_address_ranges 191 191 (by decide) (by decide)

/-! ## `Pget` is constant, `Pset` past the right edge -/

set_option maxRecDepth 1000000 in
theorem slot_extract : ∀ p : Fin 256, ∀ k : Fin 4,
    (p.val &&& pgetMasks.getD k.val 0) >>> (k.val * 2) = (p.val >>> (k.val * 2)) &&& 3 := by
  decide

/-- C27: at every canvas coordinate of every state `Pget(x, y)` succeeds and returns 0:
the value it computes is the stored 2-bit index AND-ed with the stored bank bit shifted
to bit 2. -/
theorem Pget_constant (e : Engine) (x y : Nat) (hx : x < 192) (hy : y < 192) :
    Pget e x y = some (storedIndex e x y &&& ((storedBank e x y <<< 2) % 256)) ∧
      Pget e x y = some 0 := by
  refine ⟨?_, Pget_canvas_zero e hx hy⟩
  rw [Pget_eq, if_pos (psetOK_canvas hx hy), pixAddr_canvas hx hy, palAddr_canvas hx hy,
    tmod4_natCast x, tmod8_natCast x]
  simp only [Int.toNat_ofNat, pgetValue, storedIndex, storedBank]
  rw [slot_extract ⟨_, e.isByte (x / 4 + y * 48)⟩ ⟨x % 4, Nat.mod_lt _ (by decide)⟩]

theorem Pget_constant_witness :
    Pget ((zeroEngine.write 0 0xFF).write 0x2401 0xFF) (1 : Nat) (0 : Nat)
        = some (storedIndex ((zeroEngine.write 0 0xFF).write 0x2401 0xFF) 1 0 &&&
            ((storedBank ((zeroEngine.write 0 0xFF).write 0x2401 0xFF) 1 0 <<< 2) % 256)) ∧
      Pget ((zeroEngine.write 0 0xFF).write 0x2401 0xFF) (1 : Nat) (0 : Nat) = some 0 :=
  Pget_constant ((zeroEngine.write 0 0xFF).write 0x2401 0xFF) 1 0 (by decide) (by decide)

/-- C29: for `x ≥ 0` and every row `y`, `Pset(x + 192, y, col)` addresses the same colour
byte and palette byte with the same shifts as `Pset(x, y + 1, col)`, and the two calls
give the same result on every state (the same new state, or both fail). -/
theorem Pset_past_right_edge (e : Engine) (x y : Int) (col : Nat) (hx : 0 ≤ x) :
    pixAddr (x + 192) y = pixAddr x (y + 1) ∧ palAddr (x + 192) y = palAddr x (y + 1) ∧
      (x + 192).tmod 4 = x.tmod 4 ∧ (x + 192).tmod 8 = x.tmod 8 ∧
      Pset e (x + 192) y col = Pset e x (y + 1) col := by
  have d4 : (x + 192).tdiv 4 = x.tdiv 4 + 48 := by
    rw [Int.tdiv_eq_ediv (by omega) (by decide), Int.tdiv_eq_ediv hx (by decide)]; omega
  have d8 : (x + 192).tdiv 8 = x.tdiv 8 + 24 := by
    rw [Int.tdiv_eq_ediv (by omega) (by decide), Int.tdiv_eq_ediv hx (by decide)]; omega
  have m4 : (x + 192).tmod 4 = x.tmod 4 := by
    rw [Int.tmod_eq_emod (by omega) (by decide), Int.tmod_eq_emod hx (by decide)]; omega
  have m8 : (x + 192).tmod 8 = x.tmod 8 := by
    rw [Int.tmod_eq_emod (by omega) (by decide), Int.tmod_eq_emod hx (by decide)]; omega
  have hp : pixAddr (x + 192) y = pixAddr x (y + 1) := by
    unfold pixAddr; rw [d4]; unfold wrap64; omega
  have hq : palAddr (x + 192) y = palAddr x (y + 1) := by
    unfold palAddr; rw [d8]; unfold wrap64; omega
  refine ⟨hp, hq, m4, m8, ?_⟩
  rw [Pset_eq, Pset_eq]
  unfold psetOK
  simp only [hp, hq, m4, m8]

theorem Pset_past_right_edge_witness :
    pixAddr (5 + 192) 7 = pixAddr 5 (7 + 1) ∧ palAddr (5 + 192) 7 = palAddr 5 (7 + 1) ∧
      ((5 : Int) + 192).tmod 4 = (5 : Int).tmod 4 ∧ ((5 : Int) + 192).tmod 8 = (5 : Int).tmod 8 ∧
      Pset zeroEngine (5 + 192) 7 Col3 = Pset zeroEngine 5 (7 + 1) Col3 :=
  Pset_past_right_edge zeroEngine 5 7 Col3 (by decide)

/-! ## `stringToByte` computes twice the value -/

theorem utf8Len_binary (cs : List Char) (h : ∀ c ∈ cs, c = '0' ∨ c = '1') :
    String.utf8Len cs = cs.length := by
  induction cs with
  | nil => rfl
  | cons c cs ih =>
    rw [String.utf8Len_cons, ih (fun d hd => h d (List.mem_cons_of_mem c hd)), List.length_cons]
    rcases h c (List.mem_cons_self c cs) with hc | hc <;> subst hc <;> rfl

/-- Invariant of the loop of `stringToByte`: the byte `ret` is twice the value of the
digits read so far, modulo 256. -/
theorem stringToByteLoop_value (s : String) (cs : List Char) (ret acc : Nat)
    (h : ∀ c ∈ cs, c = '0' ∨ c = '1') (hret : ret < 256) (hacc : ret = 2 * acc % 256) :
    stringToByteLoop s cs ret =
      .ok (2 * cs.foldl (fun a c => 2 * a + binDigit c) acc % 256) := by
  induction cs generalizing ret acc with
  | nil => rw [stringToByteLoop, List.foldl_nil, hacc]
  | cons c cs ih =>
    have hc := h c (List.mem_cons_self c cs)
    have hgood : ¬ (c ≠ '0' ∧ c ≠ '1') := by
      rintro ⟨h0, h1⟩
      rcases hc with hc | hc
      · exact h0 hc
      · exact h1 hc
    simp only [stringToByteLoop, if_neg hgood, List.foldl_cons]
    apply ih _ _ (fun d hd => h d (List.mem_cons_of_mem c hd))
    · exact Nat.mod_lt _ (by decide)
    · rw [Nat.shiftLeft_eq]
      unfold binDigit
      by_cases h1 : c = '1'
      · simp only [if_pos h1]; omega
      · simp only [if_neg h1]; omega

theorem foldl_binary_acc (cs : List Char) (acc : Nat) :
    cs.foldl (fun a c => 2 * a + binDigit c) acc = acc * 2 ^ cs.length + binValue cs := by
  unfold binValue
  induction cs generalizing acc with
  | nil => simp
  | cons c cs ih =>
    rw [List.foldl_cons, List.foldl_cons, ih, ih (2 * 0 + binDigit c), List.length_cons]
    ring

/-- Value `stringToByte` returns on a valid entry. -/
theorem stringToByte_valid (s : String) (hlen : s.data.length = 8)
    (hbin : ∀ c ∈ s.data, c = '0' ∨ c = '1') :
    stringToByte s = .ok (2 * binValue s.data % 256) := by
  have h8 : s.utf8ByteSize = 8 := by
    cases s with
    | mk cs => rw [String.utf8ByteSize_mk, utf8Len_binary cs hbin]; exact hlen
  unfold stringToByte
  rw [if_neg (not_not.2 h8)]
  exact stringToByteLoop_value s s.data 0 0 hbin (by decide) rfl

/-- Twice the value of 8 digits, modulo 256, does not depend on the first digit. -/
theorem binValue_tail (cs : List Char) (hlen : cs.length = 8) :
    2 * binValue cs % 256 = 2 * binValue cs.tail % 256 := by
  cases cs with
  | nil => cases hlen
  | cons c t =>
    have ht : t.length = 7 := by rw [List.length_cons] at hlen; omega
    have h := foldl_binary_acc t (2 * 0 + binDigit c)
    rw [ht] at h
    have hv : binValue (c :: t) = (2 * 0 + binDigit c) * 2 ^ 7 + binValue t := by
      rw [← h]; rfl
    rw [hv, List.tail_cons]
    omega

/-- C30: for every valid entry (8 characters `0`/`1`) `stringToByte` returns
`2 * v mod 256`, where `v` is the number the 8 digits denote, first digit most
significant; the result is even, and two valid entries that differ only in their first
character convert to the same byte. -/
theorem stringToByte_doubles (s : String) (hlen : s.data.length = 8)
    (hbin : ∀ c ∈ s.data, c = '0' ∨ c = '1') :
    stringToByte s = .ok (2 * binValue s.data % 256) ∧
      (2 * binValue s.data % 256) % 2 = 0 ∧
      ∀ s' : String, s'.data.length = 8 → (∀ c ∈ s'.data, c = '0' ∨ c = '1') →
        s'.data.tail = s.data.tail → stringToByte s' = stringToByte s := by
  refine ⟨stringToByte_valid s hlen hbin, by omega, ?_⟩
  intro s' hlen' hbin' htail
  rw [stringToByte_valid s hlen hbin, stringToByte_valid s' hlen' hbin',
    binValue_tail s.data hlen, binValue_tail s'.data hlen', htail]

theorem stringToByte_doubles_witness :
    stringToByte "10000001" = .ok (2 * binValue "10000001".data % 256) ∧
      (2 * binValue "10000001".data % 256) % 2 = 0 ∧
      ∀ s' : String, s'.data.length = 8 → (∀ c ∈ s'.data, c = '0' ∨ c = '1') →
        s'.data.tail = "10000001".data.tail → stringToByte s' = stringToByte "10000001" :=
  stringToByte_doubles "10000001" (by decide) (by decide)

/-! ## Degenerate and empty rectangles -/

/-- C23 (counterexample): on the all-zero memory `Rect(0, 0, 1, 2, Col1)` changes the
stored index of two canvas pixels, `(0, 0)` and `(0, 1)`, from 0 to 1. -/
theorem Rect_one_by_two :
    (Rect zeroEngine 0 0 1 2 Col1).map (fun e => (storedIndex e 0 0, storedIndex e 0 1))
        = some (1, 1) ∧
      storedIndex zeroEngine 0 0 = 0 ∧ storedIndex zeroEngine 0 1 = 0 := by
  decide

/-- C23 (amended): with camera `(0, 0)`, for a box inside the canvas with `w = 1` or
`h = 1` (the other dimension at least 1), `Rect(x, y, w, h, col)` succeeds and plots every
pixel of the box, a line of `w * h` pixels, and no other canvas pixel; when `w = 1` and
`h = 1` the only pixel plotted is `(x, y)`. -/
theorem Rect_degenerate (e : Engine) (x y w h col : Nat)
    (hcx : cameraX e = 0) (hcy : cameraY e = 0) (hw1 : 1 ≤ w) (hh1 : 1 ≤ h)
    (hdeg : w = 1 ∨ h = 1) (hw : x + w ≤ 192) (hh : y + h ≤ 192) :
    ∃ e', Rect e x y w h col = some e' ∧
      (∀ px py, x ≤ px → px < x + w → y ≤ py → py < y + h →
        storedIndex e' px py = col &&& 3) ∧
      (∀ px py, px < 192 → py < 192 → ¬ (x ≤ px ∧ px < x + w ∧ y ≤ py ∧ py < y + h) →
        storedIndex e' px py = storedIndex e px py) ∧
      (w = 1 → h = 1 → ∀ px py, px < 192 → py < 192 → ¬ (px = x ∧ py = y) →
        storedIndex e' px py = storedIndex e px py) := by
  obtain ⟨e2, he2, hP2⟩ := Rect_painted e x y w h col hcx hcy hw1 hh1 hw hh
  refine ⟨e2, he2, ?_, ?_, ?_⟩
  · intro px py h1 h2 h3 h4
    exact (hP2 px py (by omega) (by omega)).1 (by omega)
  · intro px py h1 h2 h3
    exact (hP2 px py h1 h2).2 (by omega)
  · intro hw' hh' px py h1 h2 h3
    exact (hP2 px py h1 h2).2 (by omega)

theorem Rect_degenerate_witness :
    ∃ e', Rect zeroEngine (3 : Nat) (4 : Nat) (1 : Nat) (6 : Nat) Col2 = some e' ∧
      (∀ px py, 3 ≤ px → px < 3 + 1 → 4 ≤ py → py < 4 + 6 →
        storedIndex e' px py = Col2 &&& 3) ∧
      (∀ px py, px < 192 → py < 192 → ¬ (3 ≤ px ∧ px < 3 + 1 ∧ 4 ≤ py ∧ py < 4 + 6) →
        storedIndex e' px py = storedIndex zeroEngine px py) ∧
      (1 = 1 → 6 = 1 → ∀ px py, px < 192 → py < 192 → ¬ (px = 3 ∧ py = 4) →
        storedIndex e' px py = storedIndex zeroEngine px py) :=
  Rect_degenerate zeroEngine 3 4 1 6 Col2 (by decide) (by decide) (by decide) (by decide)
    (by decide) (by decide) (by decide)

/-- C24 (counterexample): with `w = 0` and `h = 1` the second loop of `Rect` still runs and
plots `(x, y)` and `(x-1, y)`: on the all-zero memory `Rect(0, 0, 0, 1, Col1)` fails with a
run-time error (negative shift count for column `-1`), and `Rect(1, 0, 0, 1, Col1)`
changes the stored index of pixels `(1, 0)` and `(0, 0)` from 0 to 1. -/
theorem Rect_zero_width :
    (Rect zeroEngine 0 0 0 1 Col1).isSome = false ∧
      (Rect zeroEngine 1 0 0 1 Col1).map (fun e => (storedIndex e 1 0, storedIndex e 0 0))
        = some (1, 1) ∧
      storedIndex zeroEngine 1 0 = 0 ∧ storedIndex zeroEngine 0 0 = 0 := by
  decide

/-- C24 (amended): a call `Rect(x, y, w, h, col)` with `w ≤ 0` and `h ≤ 0` completes and
leaves the memory unchanged, for every state, every `x`, `y` and colour. -/
theorem Rect_empty (e : Engine) (x y w h : Int) (col : Nat) (hw : w ≤ 0) (hh : h ≤ 0) :
    Rect e x y w h col = some e := by
  have h1 : w.toNat = 0 := by omega
  have h2 : h.toNat = 0 := by omega
  unfold Rect
  simp only [h1, h2, forLoop, Option.some_bind]

theorem Rect_empty_witness : Rect zeroEngine 7 9 0 (-3) Col1 = some zeroEngine :=
  Rect_empty zeroEngine 7 9 0 (-3) Col1 (by decide) (by decide)

/-! ## The clip rectangle is inert -/

theorem agreeOpt_bind {R : Engine → Engine → Prop} {o1 o2 : Option Engine}
    {f g : Engine → Option Engine} (h : agreeOpt R o1 o2)
    (hfg : ∀ u v, R u v → agreeOpt R (f u) (g v)) : agreeOpt R (o1.bind f) (o2.bind g) := by
  rcases h with ⟨h1, h2⟩ | ⟨u, v, h1, h2, huv⟩
  · rw [h1, h2]; exact Or.inl ⟨rfl, rfl⟩
  · rw [h1, h2, Option.some_bind, Option.some_bind]; exact hfg u v huv

theorem agreeOpt_ite {R : Engine → Engine → Prop} {c : Prop} [Decidable c]
    {a1 a2 b1 b2 : Option Engine} (ha : agreeOpt R a1 a2) (hb : agreeOpt R b1 b2) :
    agreeOpt R (if c then a1 else b1) (if c then a2 else b2) := by
  by_cases h : c
  · rw [if_pos h, if_pos h]; exact ha
  · rw [if_neg h, if_neg h]; exact hb

theorem agreeOpt_some {R : Engine → Engine → Prop} {u v : Engine} (h : R u v) :
    agreeOpt R (some u) (some v) :=
  Or.inr ⟨u, v, rfl, rfl, h⟩

theorem Pset_agreeOn (S : Nat → Prop) (x y : Int) (col : Nat) (e1 e2 : Engine)
    (h : agreeOn S e1 e2) : agreeOpt (agreeOn S) (Pset e1 x y col) (Pset e2 x y col) :=
  Pset_agree S x y col e1 e2 h

theorem camera_agreeOn {S : Nat → Prop} {e1 e2 : Engine}
    (hcam : S 0x3603 ∧ S 0x3604 ∧ S 0x3605 ∧ S 0x3606) (h : agreeOn S e1 e2) :
    cameraX e1 = cameraX e2 ∧ cameraY e1 = cameraY e2 := by
  unfold cameraX cameraY
  rw [h _ hcam.1, h _ hcam.2.1, h _ hcam.2.2.1, h _ hcam.2.2.2]
  exact ⟨rfl, rfl⟩

/-- `RectFill` reads the memory only at the camera bytes and, through `Pset`, bytewise. -/
theorem RectFill_agreeOn (S : Nat → Prop) (hcam : S 0x3603 ∧ S 0x3604 ∧ S 0x3605 ∧ S 0x3606)
    (x y w h : Int) (col : Nat) (e1 e2 : Engine) (hag : agreeOn S e1 e2) :
    agreeOpt (agreeOn S) (RectFill e1 x y w h col) (RectFill e2 x y w h col) := by
  obtain ⟨hX, hY⟩ := camera_agreeOn hcam hag
  unfold RectFill
  simp only [hX, hY]
  apply forLoop_agree
  · intro r u v huv
    apply forLoop_agree
    · intro c u' v' huv'
      exact Pset_agreeOn S _ _ col u' v' huv'
    · exact huv
  · exact hag

/-- `Rect` reads the memory only at the camera bytes and, through `Pset`, bytewise. -/
theorem Rect_agreeOn (S : Nat → Prop) (hcam : S 0x3603 ∧ S 0x3604 ∧ S 0x3605 ∧ S 0x3606)
    (x y w h : Int) (col : Nat) (e1 e2 : Engine) (hag : agreeOn S e1 e2) :
    agreeOpt (agreeOn S) (Rect e1 x y w h col) (Rect e2 x y w h col) := by
  obtain ⟨hX, hY⟩ := camera_agreeOn hcam hag
  unfold Rect
  simp only [hX, hY]
  apply agreeOpt_bind
  · apply forLoop_agree
    · intro r u v huv
      exact agreeOpt_bind (Pset_agreeOn S _ _ col u v huv)
        (fun u' v' huv' => Pset_agreeOn S _ _ col u' v' huv')
    · exact hag
  · intro u v huv
    apply forLoop_agree
    · intro c u' v' huv'
      exact agreeOpt_bind (Pset_agreeOn S _ _ col u' v' huv')
        (fun u'' v'' huv'' => Pset_agreeOn S _ _ col u'' v'' huv'')
    · exact huv

/-- `Line` reads the memory only at the camera bytes and, through `Pset`, bytewise. -/
theorem Line_agreeOn (S : Nat → Prop) (hcam : S 0x3603 ∧ S 0x3604 ∧ S 0x3605 ∧ S 0x3606)
    (x1 y1 x2 y2 : Int) (col : Nat) (e1 e2 : Engine) (hag : agreeOn S e1 e2) :
    agreeOpt (agreeOn S) (Line e1 x1 y1 x2 y2 col) (Line e2 x1 y1 x2 y2 col) := by
  obtain ⟨hX, hY⟩ := camera_agreeOn hcam hag
  unfold Line
  simp only [hX, hY]
  refine agreeOpt_ite ?_ (agreeOpt_ite ?_ (agreeOpt_some hag))
  · apply forLoop_agree
    · intro k u v huv
      exact Pset_agreeOn S _ _ col u v huv
    · exact hag
  · apply forLoop_agree
    · intro k u v huv
      exact Pset_agreeOn S _ _ col u v huv
    · exact hag

/-- `Cls` reads the memory only at the background register. -/
theorem Cls_agreeOn (S : Nat → Prop) (hbg : S 0x3602) (e1 e2 : Engine)
    (hag : agreeOn S e1 e2) : agreeOn S (Cls e1) (Cls e2) := by
  intro a ha
  rw [Cls_RAM, Cls_RAM]
  unfold clsPalBG clsColBG
  rw [hag _ hbg, hag a ha]

/-- `Clip` changes the four clip bytes only. -/
theorem Clip_agreeOn (e : Engine) (x y w h : Int) : agreeOn notClip e (Clip e x y w h) := by
  intro a ha
  unfold notClip at ha
  unfold Clip
  simp only [Engine.write_RAM]
  rw [if_neg (by omega), if_neg (by omega), if_neg (by omega), if_neg (by omega)]

/-- C25: for two states that agree outside the clip bytes `0x360A .. 0x360D`, each of
`Pset`, `Rect`, `RectFill` and `Line` with the same arguments fails on both or succeeds on
both, and the resulting states (also those of `Cls`) again agree outside the clip bytes. -/
theorem clip_inert (e1 e2 : Engine) (hclip : agreeOn notClip e1 e2)
    (x y w h x2 y2 : Int) (col : Nat) :
    agreeOpt (agreeOn notClip) (Pset e1 x y col) (Pset e2 x y col) ∧
      agreeOpt (agreeOn notClip) (Rect e1 x y w h col) (Rect e2 x y w h col) ∧
      agreeOpt (agreeOn notClip) (RectFill e1 x y w h col) (RectFill e2 x y w h col) ∧
      agreeOpt (agreeOn notClip) (Line e1 x y x2 y2 col) (Line e2 x y x2 y2 col) ∧
      agreeOn notClip (Cls e1) (Cls e2) := by
  have hcam : notClip 0x3603 ∧ notClip 0x3604 ∧ notClip 0x3605 ∧ notClip 0x3606 := by
    unfold notClip; omega
  have hbg : notClip 0x3602 := by unfold notClip; omega
  exact ⟨Pset_agreeOn notClip x y col e1 e2 hclip,
    Rect_agreeOn notClip hcam x y w h col e1 e2 hclip,
    RectFill_agreeOn notClip hcam x y w h col e1 e2 hclip,
    Line_agreeOn notClip hcam x y x2 y2 col e1 e2 hclip,
    Cls_agreeOn notClip hbg e1 e2 hclip⟩

theorem clip_inert_witness :
    agreeOpt (agreeOn notClip) (Pset zeroEngine 3 4 Col3)
        (Pset (Clip zeroEngine 10 20 30 40) 3 4 Col3) ∧
      agreeOpt (agreeOn notClip) (Rect zeroEngine 3 4 5 6 Col3)
        (Rect (Clip zeroEngine 10 20 30 40) 3 4 5 6 Col3) ∧
      agreeOpt (agreeOn notClip) (RectFill zeroEngine 3 4 5 6 Col3)
        (RectFill (Clip zeroEngine 10 20 30 40) 3 4 5 6 Col3) ∧
      agreeOpt (agreeOn notClip) (Line zeroEngine 3 4 7 8 Col3)
        (Line (Clip zeroEngine 10 20 30 40) 3 4 7 8 Col3) ∧
      agreeOn notClip (Cls zeroEngine) (Cls (Clip zeroEngine 10 20 30 40)) :=
  clip_inert zeroEngine (Clip zeroEngine 10 20 30 40) (Clip_agreeOn zeroEngine 10 20 30 40)
    3 4 5 6 7 8 Col3

/-! ## `Line` swaps the x endpoints only -/

theorem f64ofInt_small (n : Int) (h : |n| < 2 ^ 53) : f64ofInt n = n :=
  round64_intCast n h

theorem f64toInt_intCast (n : Int) (h1 : -2 ^ 63 ≤ n) (h2 : n < 2 ^ 63) :
    f64toInt (n : ℚ) = n := by
  unfold f64toInt
  simp only [Int.floor_intCast, Int.ceil_intCast, ite_self]
  rw [if_pos ⟨h1, h2⟩]

/-- The order of the two x arguments does not matter to `Line`: it sorts them, and leaves
`y1`, `y2` in place. -/
theorem Line_swap_x (e : Engine) (x1 y1 x2 y2 : Int) (col : Nat) :
    Line e x1 y1 x2 y2 col = Line e x2 y1 x1 y2 col := by
  have hxa : (if wrap64 (x2 - cameraX e) < wrap64 (x1 - cameraX e) then wrap64 (x2 - cameraX e)
      else wrap64 (x1 - cameraX e))
      = (if wrap64 (x1 - cameraX e) < wrap64 (x2 - cameraX e) then wrap64 (x1 - cameraX e)
      else wrap64 (x2 - cameraX e)) := by
    split_ifs <;> omega
  have hxb : (if wrap64 (x2 - cameraX e) < wrap64 (x1 - cameraX e) then wrap64 (x1 - cameraX e)
      else wrap64 (x2 - cameraX e))
      = (if wrap64 (x1 - cameraX e) < wrap64 (x2 - cameraX e) then wrap64 (x2 - cameraX e)
      else wrap64 (x1 - cameraX e)) := by
    split_ifs <;> omega
  unfold Line
  simp only [hxa, hxb]

/-- The loop of `Line(0, 0, 10, 10, col)`, camera `(0, 0)`: the slope is 1 and pixel
`(k, k)` is plotted for `k = 0 .. 9`. -/
theorem Line_diagonal_loop (e : Engine) (col : Nat)
    (hcx : cameraX e = 0) (hcy : cameraY e = 0) :
    Line e 0 0 10 10 col = forLoop 10 (fun k e2 => Pset e2 (k : Int) (k : Int) col) e := by
  have w0 : wrap64 (0 - 0) = 0 := by unfold wrap64; omega
  have w10 : wrap64 (10 - 0) = 10 := by unfold wrap64; omega
  have hlt : ¬ ((10 : Int) < 0) := by omega
  have hpos : (0 : Int) < 10 := by omega
  have f10 : f64ofInt 10 = 10 := by
    have := f64ofInt_small 10 (by norm_num)
    simpa using this
  have f0 : f64ofInt 0 = 0 := by
    have := f64ofInt_small 0 (by norm_num)
    simpa using this
  have hdh : f64div (f64sub (f64ofInt 10) (f64ofInt 0)) (f64ofInt 10) = 1 := by
    rw [f10, f0]
    unfold f64sub f64div
    have e1 : round64 ((10 : ℚ) - 0) = 10 := by
      have := round64_intCast 10 (by norm_num)
      simpa using this
    have e2 : round64 ((10 : ℚ) / 10) = 1 := by
      have := round64_intCast 1 (by norm_num)
      simpa using this
    rw [e1, e2]
  have hn : ((10 : Int)).toNat = 10 := rfl
  unfold Line
  simp only [hcx, hcy, w0, w10, if_neg hlt, if_pos hpos, hdh, hn]
  apply forLoop_congr
  intro k hk u
  have hk1 : wrap64 ((0 : Int) + (k : Int) - 0) = (k : Int) := by unfold wrap64; omega
  have hk2 : f64ofInt (k : Int) = ((k : Int) : ℚ) :=
    f64ofInt_small k (by rw [abs_of_nonneg (by omega)]; omega)
  have hk3 : f64mul 1 (((k : Int) : ℚ)) = ((k : Int) : ℚ) := by
    unfold f64mul
    rw [one_mul]
    exact round64_intCast k (by rw [abs_of_nonneg (by omega)]; omega)
  have hk4 : f64toInt (((k : Int) : ℚ)) = (k : Int) := f64toInt_intCast k (by omega) (by omega)
  have hk5 : wrap64 ((0 : Int) + (k : Int)) = (k : Int) := by unfold wrap64; omega
  simp only [zero_add] at hk1 hk5 ⊢
  rw [sub_zero, hk5, hk2, hk3, hk4, hk5]

/-- C28: `Line(x1, y1, x2, y2, col)` gives the same result as `Line(x2, y1, x1, y2, col)` on
every state (in particular when `x2 < x1`): the x endpoints are sorted and the y
coordinates stay in place. With camera `(0, 0)`, `Line(10, 0, 0, 10, col)` and
`Line(0, 0, 10, 10, col)` succeed with the same state, in which the pixels
`(0,0), (1,1), ..., (9,9)` have stored index `col & 3` and every other canvas pixel, those of
the segment from `(10, 0)` to `(0, 10)` included, keeps its stored index. -/
theorem Line_swaps_x_only (e : Engine) (x1 y1 x2 y2 : Int) (col : Nat) :
    Line e x1 y1 x2 y2 col = Line e x2 y1 x1 y2 col ∧
      (cameraX e = 0 → cameraY e = 0 →
        ∃ e', Line e 10 0 0 10 col = some e' ∧ Line e 0 0 10 10 col = some e' ∧
          (∀ k, k < 10 → storedIndex e' k k = col &&& 3) ∧
          ∀ px py, px < 192 → py < 192 → ¬ (px = py ∧ px < 10) →
            storedIndex e' px py = storedIndex e px py) := by
  refine ⟨Line_swap_x e x1 y1 x2 y2 col, ?_⟩
  intro hcx hcy
  obtain ⟨e1, he1, hP⟩ := forLoop_inv
    (fun k u => paintedBy e u (fun a b => a = b ∧ a < k) col)
    (fun k e2 => Pset e2 (k : Int) (k : Int) col)
    10 e
    (paintedBy_congr (paintedBy_refl e col)
      (by intro a b _ _; exact ⟨fun h' => h'.elim, fun h' => by omega⟩))
    (by
      intro k u hk hu
      obtain ⟨v, hv, hQ⟩ := paintedBy_Pset hu k k (by omega) (by omega)
      refine ⟨v, hv, ?_⟩
      dsimp only
      refine paintedBy_congr hQ ?_
      intro a b _ _
      constructor <;> intro h' <;> omega)
  rw [← Line_diagonal_loop e col hcx hcy] at he1
  refine ⟨e1, by rw [Line_swap_x]; exact he1, he1, ?_, ?_⟩
  · intro k hk
    exact (hP k k (by omega) (by omega)).1 ⟨rfl, hk⟩
  · intro px py h1 h2 h3
    exact (hP px py h1 h2).2 h3

/-! ## `float64` rounding error and the slope of `Line` -/

theorem roundHalfEven_err (m : ℚ) : |(roundHalfEven m : ℚ) - m| ≤ 1 / 2 := by
  have h1 : (⌊m⌋ : ℚ) ≤ m := Int.floor_le m
  have h2 : m < (⌊m⌋ : ℚ) + 1 := Int.lt_floor_add_one m
  unfold roundHalfEven
  simp only
  rw [abs_le]
  split_ifs with ha hb hc
  · constructor <;> linarith
  · push_cast; constructor <;> linarith
  · constructor <;> linarith
  · push_cast; constructor <;> linarith

theorem round64_err (q : ℚ) : |round64 q - q| ≤ |q| / 2 ^ 53 := by
  by_cases h0 : q = 0
  · subst h0; simp [round64]
  · have hpos : 0 < |q| := abs_pos.2 h0
    have hlog : (2 : ℚ) ^ Int.log 2 |q| ≤ |q| := Int.zpow_log_le_self (by norm_num) hpos
    have hu : (0 : ℚ) < 2 ^ (Int.log 2 |q| - 52) := by positivity
    have hu2 : (2 : ℚ) ^ (Int.log 2 |q| - 52) = 2 ^ Int.log 2 |q| / 2 ^ 52 := by
      rw [zpow_sub₀ (by norm_num)]; norm_num
    unfold round64
    rw [if_neg h0]
    simp only
    have key : (roundHalfEven (q / 2 ^ (Int.log 2 |q| - 52)) : ℚ) * 2 ^ (Int.log 2 |q| - 52) - q
        = ((roundHalfEven (q / 2 ^ (Int.log 2 |q| - 52)) : ℚ) - q / 2 ^ (Int.log 2 |q| - 52))
          * 2 ^ (Int.log 2 |q| - 52) := by
      field_simp
    rw [key, abs_mul, abs_of_pos hu]
    have he := roundHalfEven_err (q / 2 ^ (Int.log 2 |q| - 52))
    calc |(roundHalfEven (q / 2 ^ (Int.log 2 |q| - 52)) : ℚ) - q / 2 ^ (Int.log 2 |q| - 52)|
          * 2 ^ (Int.log 2 |q| - 52)
        ≤ 1 / 2 * 2 ^ (Int.log 2 |q| - 52) := by
          exact mul_le_mul_of_nonneg_right he (le_of_lt hu)
      _ = 2 ^ Int.log 2 |q| / 2 ^ 53 := by rw [hu2]; ring
      _ ≤ |q| / 2 ^ 53 := by
          exact div_le_div_of_nonneg_right hlog (by positivity)

theorem round64_bounds_nonneg {q : ℚ} (hq : 0 ≤ q) :
    q * (1 - 1 / 2 ^ 53) ≤ round64 q ∧ round64 q ≤ q * (1 + 1 / 2 ^ 53) := by
  have h := round64_err q
  rw [abs_of_nonneg hq, abs_le] at h
  constructor <;> [linarith [h.1]; linarith [h.2]]

theorem round64_bounds_nonpos {q : ℚ} (hq : q ≤ 0) :
    q * (1 + 1 / 2 ^ 53) ≤ round64 q ∧ round64 q ≤ q * (1 - 1 / 2 ^ 53) := by
  have h := round64_err q
  rw [abs_of_nonpos hq, abs_le] at h
  constructor <;> [linarith [h.1]; linarith [h.2]]

/-- Rounded slope times a step short of the full width stays between 0 and the rise. -/
theorem slope_step (d : Int) (w k : Nat) (hw : w ≤ 191) (hk : k < w) :
    (0 ≤ d → 0 ≤ round64 (round64 ((d : ℚ) / (w : ℚ)) * (k : ℚ)) ∧
        round64 (round64 ((d : ℚ) / (w : ℚ)) * (k : ℚ)) ≤ d) ∧
      (d ≤ 0 → (d : ℚ) ≤ round64 (round64 ((d : ℚ) / (w : ℚ)) * (k : ℚ)) ∧
        round64 (round64 ((d : ℚ) / (w : ℚ)) * (k : ℚ)) ≤ 0) := by
  have hwpos : (0 : ℚ) < (w : ℚ) := by exact_mod_cast (by omega : 0 < w)
  have hk0 : (0 : ℚ) ≤ (k : ℚ) := by exact_mod_cast Nat.zero_le k
  have hkw : (191 : ℚ) * (k : ℚ) ≤ 190 * (w : ℚ) := by
    have : 191 * k ≤ 190 * w := by omega
    exact_mod_cast this
  have hc : (1 + 1 / 2 ^ 53 : ℚ) * (1 + 1 / 2 ^ 53) ≤ 191 / 190 := by norm_num
  have hc0 : (0 : ℚ) ≤ 1 - 1 / 2 ^ 53 := by norm_num
  have hc1 : (0 : ℚ) ≤ 1 + 1 / 2 ^ 53 := by norm_num
  -- `d / w * k` is at most `190/191` of `d` in magnitude
  have hfrac : (k : ℚ) / (w : ℚ) ≤ 190 / 191 := by
    rw [div_le_div_iff₀ hwpos (by norm_num)]; linarith
  constructor
  · intro hd
    have hdq : (0 : ℚ) ≤ (d : ℚ) := by exact_mod_cast hd
    have ha : (0 : ℚ) ≤ (d : ℚ) / (w : ℚ) := div_nonneg hdq (le_of_lt hwpos)
    obtain ⟨h1, h2⟩ := round64_bounds_nonneg ha
    have hdh0 : 0 ≤ round64 ((d : ℚ) / (w : ℚ)) := le_trans (mul_nonneg ha hc0) h1
    have hq2 : 0 ≤ round64 ((d : ℚ) / (w : ℚ)) * (k : ℚ) := mul_nonneg hdh0 hk0
    obtain ⟨h3, h4⟩ := round64_bounds_nonneg hq2
    refine ⟨le_trans (mul_nonneg hq2 hc0) h3, le_trans h4 ?_⟩
    have e1 : round64 ((d : ℚ) / (w : ℚ)) * (k : ℚ) * (1 + 1 / 2 ^ 53)
        ≤ (d : ℚ) / (w : ℚ) * (1 + 1 / 2 ^ 53) * (k : ℚ) * (1 + 1 / 2 ^ 53) :=
      mul_le_mul_of_nonneg_right (mul_le_mul_of_nonneg_right h2 hk0) hc1
    have e2 : (d : ℚ) / (w : ℚ) * (1 + 1 / 2 ^ 53) * (k : ℚ) * (1 + 1 / 2 ^ 53)
        = (d : ℚ) * ((k : ℚ) / (w : ℚ)) * ((1 + 1 / 2 ^ 53) * (1 + 1 / 2 ^ 53)) := by
      field_simp; ring
    have e3 : (d : ℚ) * ((k : ℚ) / (w : ℚ)) * ((1 + 1 / 2 ^ 53) * (1 + 1 / 2 ^ 53))
        ≤ (d : ℚ) * (190 / 191) * (191 / 190) :=
      mul_le_mul (mul_le_mul_of_nonneg_left hfrac hdq) hc (by positivity)
        (mul_nonneg hdq (by norm_num))
    have e4 : (d : ℚ) * (190 / 191) * (191 / 190) = d := by ring
    linarith
  · intro hd
    have hdq : (d : ℚ) ≤ 0 := by exact_mod_cast hd
    have ha : (d : ℚ) / (w : ℚ) ≤ 0 := div_nonpos_of_nonpos_of_nonneg hdq (le_of_lt hwpos)
    obtain ⟨h1, h2⟩ := round64_bounds_nonpos ha
    have hdh0 : round64 ((d : ℚ) / (w : ℚ)) ≤ 0 :=
      le_trans h2 (mul_nonpos_of_nonpos_of_nonneg ha hc0)
    have hq2 : round64 ((d : ℚ) / (w : ℚ)) * (k : ℚ) ≤ 0 :=
      mul_nonpos_of_nonpos_of_nonneg hdh0 hk0
    obtain ⟨h3, h4⟩ := round64_bounds_nonpos hq2
    refine ⟨le_trans ?_ h3, le_trans h4 (mul_nonpos_of_nonpos_of_nonneg hq2 hc0)⟩
    have e1 : (d : ℚ) / (w : ℚ) * (1 + 1 / 2 ^ 53) * (k : ℚ) * (1 + 1 / 2 ^ 53)
        ≤ round64 ((d : ℚ) / (w : ℚ)) * (k : ℚ) * (1 + 1 / 2 ^ 53) :=
      mul_le_mul_of_nonneg_right (mul_le_mul_of_nonneg_right h1 hk0) hc1
    have e2 : (d : ℚ) / (w : ℚ) * (1 + 1 / 2 ^ 53) * (k : ℚ) * (1 + 1 / 2 ^ 53)
        = -((-(d : ℚ)) * ((k : ℚ) / (w : ℚ)) * ((1 + 1 / 2 ^ 53) * (1 + 1 / 2 ^ 53))) := by
      field_simp; ring
    have e3 : (-(d : ℚ)) * ((k : ℚ) / (w : ℚ)) * ((1 + 1 / 2 ^ 53) * (1 + 1 / 2 ^ 53))
        ≤ (-(d : ℚ)) * (190 / 191) * (191 / 190) :=
      mul_le_mul (mul_le_mul_of_nonneg_left hfrac (by linarith)) hc (by positivity)
        (mul_nonneg (by linarith) (by norm_num))
    have e4 : (-(d : ℚ)) * (190 / 191) * (191 / 190) = -d := by ring
    linarith

theorem f64toInt_between_nonneg {p : ℚ} {d : Int} (h0 : 0 ≤ p) (hd : p ≤ d) (hb : d < 2 ^ 63) :
    0 ≤ f64toInt p ∧ f64toInt p ≤ d := by
  have hf0 : 0 ≤ ⌊p⌋ := Int.floor_nonneg.2 h0
  have hfd : ⌊p⌋ ≤ d := by
    have : (⌊p⌋ : ℚ) ≤ d := le_trans (Int.floor_le p) hd
    exact_mod_cast this
  unfold f64toInt
  simp only [if_pos h0]
  rw [if_pos ⟨by omega, by omega⟩]
  exact ⟨hf0, hfd⟩

theorem f64toInt_between_nonpos {p : ℚ} {d : Int} (h0 : p ≤ 0) (hd : (d : ℚ) ≤ p)
    (hb : -2 ^ 63 ≤ d) : d ≤ f64toInt p ∧ f64toInt p ≤ 0 := by
  have hc0 : ⌈p⌉ ≤ 0 := Int.ceil_le.2 (by simpa using h0)
  have hcd : d ≤ ⌈p⌉ := by
    have : (d : ℚ) ≤ ⌈p⌉ := le_trans hd (Int.le_ceil p)
    exact_mod_cast this
  have hf0 : ⌊p⌋ ≤ 0 := le_trans (Int.floor_le_ceil p) hc0
  have hfd : d ≤ ⌊p⌋ := Int.le_floor.2 hd
  unfold f64toInt
  by_cases hp : 0 ≤ p
  · simp only [if_pos hp]
    rw [if_pos ⟨by omega, by omega⟩]
    exact ⟨hfd, hf0⟩
  · simp only [if_neg hp]
    rw [if_pos ⟨by omega, by omega⟩]
    exact ⟨hcd, hc0⟩

/-- The row `Line` computes for step `k` of a wide line between canvas rows `y1` and `y2`
lies between them. -/
theorem line_rise (y1 y2 w k : Nat) (hy1 : y1 < 192) (hy2 : y2 < 192) (hw : w ≤ 191)
    (hk : k < w) :
    ∃ y : Nat, y < 192 ∧
      wrap64 ((y1 : Int) + f64toInt (f64mul (f64div (f64sub (f64ofInt (y2 : Int))
        (f64ofInt (y1 : Int))) (f64ofInt (w : Int))) (f64ofInt (k : Int)))) = (y : Int) := by
  have f1 : f64ofInt (y1 : Int) = ((y1 : Int) : ℚ) :=
    f64ofInt_small _ (by rw [abs_of_nonneg (by omega)]; omega)
  have f2 : f64ofInt (y2 : Int) = ((y2 : Int) : ℚ) :=
    f64ofInt_small _ (by rw [abs_of_nonneg (by omega)]; omega)
  have fw : f64ofInt (w : Int) = (w : ℚ) := by
    rw [f64ofInt_small _ (by rw [abs_of_nonneg (by omega)]; omega)]; norm_cast
  have fk : f64ofInt (k : Int) = (k : ℚ) := by
    rw [f64ofInt_small _ (by rw [abs_of_nonneg (by omega)]; omega)]; norm_cast
  have fs : f64sub ((y2 : Int) : ℚ) ((y1 : Int) : ℚ) = (((y2 : Int) - (y1 : Int) : Int) : ℚ) := by
    unfold f64sub
    rw [← Int.cast_sub]
    exact round64_intCast _ (by rw [abs_lt]; constructor <;> omega)
  rw [f1, f2, fw, fk, fs]
  unfold f64div f64mul
  obtain ⟨hpos, hneg⟩ := slope_step ((y2 : Int) - (y1 : Int)) w k hw hk
  by_cases hd : (0 : Int) ≤ (y2 : Int) - (y1 : Int)
  · obtain ⟨h0, hle⟩ := hpos hd
    obtain ⟨t0, t1⟩ := f64toInt_between_nonneg h0 hle (by omega)
    refine ⟨((y1 : Int) + f64toInt (round64 (round64 ((((y2 : Int) - (y1 : Int) : Int) : ℚ)
      / (w : ℚ)) * (k : ℚ)))).toNat, by omega, ?_⟩
    rw [wrap64_id (by omega) (by omega)]
    omega
  · obtain ⟨hle, h0⟩ := hneg (by omega)
    obtain ⟨t0, t1⟩ := f64toInt_between_nonpos h0 hle (by omega)
    refine ⟨((y1 : Int) + f64toInt (round64 (round64 ((((y2 : Int) - (y1 : Int) : Int) : ℚ)
      / (w : ℚ)) * (k : ℚ)))).toNat, by omega, ?_⟩
    rw [wrap64_id (by omega) (by omega)]
    omega

/-- With camera `(0, 0)` and both end points on the canvas, `x1 ≤ x2`, `Line` is a loop of
`Pset` calls at canvas coordinates. -/
theorem Line_canvas_sorted (e : Engine) (x1 y1 x2 y2 col : Nat)
    (hcx : cameraX e = 0) (hcy : cameraY e = 0) (hx1 : x1 ≤ x2) (hx2 : x2 < 192)
    (hy1 : y1 < 192) (hy2 : y2 < 192) :
    ∃ (n : Nat) (px py : Nat → Nat), (∀ k, k < n → px k < 192 ∧ py k < 192) ∧
      Line e x1 y1 x2 y2 col =
        forLoop n (fun k e2 => Pset e2 (px k : Int) (py k : Int) col) e := by
  have wx1 : wrap64 ((x1 : Int) - 0) = x1 := by unfold wrap64; omega
  have wx2 : wrap64 ((x2 : Int) - 0) = x2 := by unfold wrap64; omega
  have wy1 : wrap64 ((y1 : Int) - 0) = y1 := by unfold wrap64; omega
  have wy2 : wrap64 ((y2 : Int) - 0) = y2 := by unfold wrap64; omega
  have hlt : ¬ ((x2 : Int) < (x1 : Int)) := by omega
  have hw : wrap64 ((x2 : Int) - (x1 : Int)) = ((x2 - x1 : Nat) : Int) := by
    unfold wrap64; omega
  have hn : ((x2 : Int) - (x1 : Int)).toNat = x2 - x1 := by omega
  by_cases hwide : x1 < x2
  · -- wide line: one pixel per column
    have hpos : (0 : Int) < ((x2 - x1 : Nat) : Int) := by omega
    refine ⟨x2 - x1, fun k => x1 + k,
      fun k => (wrap64 ((y1 : Int) + f64toInt (f64mul (f64div (f64sub (f64ofInt (y2 : Int))
        (f64ofInt (y1 : Int))) (f64ofInt ((x2 - x1 : Nat) : Int))) (f64ofInt (k : Int))))).toNat,
      ?_, ?_⟩
    · intro k hk
      obtain ⟨y, hy, hyeq⟩ := line_rise y1 y2 (x2 - x1) k hy1 hy2 (by omega) hk
      dsimp only
      rw [hyeq]
      exact ⟨by omega, by simpa using hy⟩
    · unfold Line
      simp only [hcx, hcy, wx1, wx2, wy1, wy2, if_neg hlt, hw, if_pos hpos, hn]
      apply forLoop_congr
      intro k hk u
      obtain ⟨y, hy, hyeq⟩ := line_rise y1 y2 (x2 - x1) k hy1 hy2 (by omega) hk
      have hk1 : wrap64 ((x1 : Int) + (k : Int) - (x1 : Int)) = (k : Int) := by
        unfold wrap64; omega
      rw [hk1, hyeq]
      simp only [Int.toNat_ofNat]
      push_cast
      rfl
  · -- vertical line: the slope `dw` is 0
    have hxx : x2 = x1 := by omega
    subst hxx
    have hw0 : wrap64 ((x2 : Int) - (x2 : Int)) = 0 := by unfold wrap64; omega
    have hnpos : ¬ ((0 : Int) < 0) := by omega
    have hx0 : wrap64 ((x2 : Int) + 0) = x2 := by unfold wrap64; omega
    by_cases hy : y2 < y1
    · have hlty : (y2 : Int) < (y1 : Int) := by omega
      have hh : wrap64 ((y1 : Int) - (y2 : Int)) = ((y1 - y2 : Nat) : Int) := by
        unfold wrap64; omega
      have hpos : (0 : Int) < ((y1 - y2 : Nat) : Int) := by omega
      have hn' : ((y1 : Int) - (y2 : Int)).toNat = y1 - y2 := by omega
      refine ⟨y1 - y2, fun _ => x2, fun k => y2 + k, fun k hk => ⟨hx2, by dsimp only; omega⟩, ?_⟩
      unfold Line
      simp only [hcx, hcy, wx2, wy1, wy2, if_neg hlt, hw0, if_neg hnpos, if_pos hlty, hh,
        if_pos hpos, hn', f64sub_self, f64div_zero_left, f64mul_zero_left, f64toInt_zero, hx0]
      apply forLoop_congr
      intro k hk u
      push_cast
      rfl
    · have hlty : ¬ ((y2 : Int) < (y1 : Int)) := by omega
      have hh : wrap64 ((y2 : Int) - (y1 : Int)) = ((y2 - y1 : Nat) : Int) := by
        unfold wrap64; omega
      have hn' : ((y2 : Int) - (y1 : Int)).toNat = y2 - y1 := by omega
      by_cases htall : y1 < y2
      · have hpos : (0 : Int) < ((y2 - y1 : Nat) : Int) := by omega
        refine ⟨y2 - y1, fun _ => x2, fun k => y1 + k, fun k hk => ⟨hx2, by dsimp only; omega⟩, ?_⟩
        unfold Line
        simp only [hcx, hcy, wx2, wy1, wy2, if_neg hlt, hw0, if_neg hnpos, if_neg hlty, hh,
          if_pos hpos, hn', f64sub_self, f64div_zero_left, f64mul_zero_left, f64toInt_zero, hx0]
        apply forLoop_congr
        intro k hk u
        push_cast
        rfl
      · have hpos : ¬ ((0 : Int) < ((y2 - y1 : Nat) : Int)) := by omega
        refine ⟨0, fun _ => 0, fun _ => 0, fun k hk => absurd hk (Nat.not_lt_zero k), ?_⟩
        unfold Line
        simp only [hcx, hcy, wx2, wy1, wy2, if_neg hlt, hw0, if_neg hnpos, if_neg hlty, hh,
          if_neg hpos]
        rfl

/-! ## Drawing and the registers -/

theorem regsKept_refl (e : Engine) : regsKept e e := fun _ _ => rfl

theorem regsKept_trans {e u v : Engine} (h1 : regsKept e u) (h2 : regsKept u v) :
    regsKept e v := fun a ha => (h2 a ha).trans (h1 a ha)

/-- `Pset` at a canvas pixel succeeds and writes below `0x3601` only. -/
theorem Pset_canvas_regs (u : Engine) (x y col : Nat) (hx : x < 192) (hy : y < 192) :
    ∃ v, Pset u x y col = some v ∧ regsKept u v := by
  refine ⟨_, Pset_canvas u col hx hy, ?_⟩
  intro a ha
  rw [psetWrite_RAM u _ _ _ _ (by omega), if_neg (by omega), if_neg (by omega)]

/-- A loop of `Pset` calls at canvas pixels succeeds and writes below `0x3601` only. -/
theorem canvas_loop_regs (e : Engine) (n : Nat) (px py : Nat → Nat) (col : Nat)
    (h : ∀ k, k < n → px k < 192 ∧ py k < 192) :
    ∃ e', forLoop n (fun k e2 => Pset e2 (px k : Int) (py k : Int) col) e = some e' ∧
      regsKept e e' := by
  apply forLoop_inv (fun _ u => regsKept e u)
  · exact regsKept_refl e
  · intro k u hk hu
    obtain ⟨v, hv, hkeep⟩ := Pset_canvas_regs u (px k) (py k) col (h k hk).1 (h k hk).2
    exact ⟨v, hv, regsKept_trans hu hkeep⟩

/-- With camera `(0, 0)` and both end points on the canvas, `Line` is a loop of `Pset`
calls at canvas coordinates. -/
theorem Line_canvas (e : Engine) (x1 y1 x2 y2 col : Nat)
    (hcx : cameraX e = 0) (hcy : cameraY e = 0) (hx1 : x1 < 192) (hx2 : x2 < 192)
    (hy1 : y1 < 192) (hy2 : y2 < 192) :
    ∃ (n : Nat) (px py : Nat → Nat), (∀ k, k < n → px k < 192 ∧ py k < 192) ∧
      Line e x1 y1 x2 y2 col =
        forLoop n (fun k e2 => Pset e2 (px k : Int) (py k : Int) col) e := by
  by_cases h : x1 ≤ x2
  · exact Line_canvas_sorted e x1 y1 x2 y2 col hcx hcy h hx2 hy1 hy2
  · rw [Line_swap_x]
    exact Line_canvas_sorted e x2 y1 x1 y2 col hcx hcy (by omega) hx1 hy1 hy2

theorem RectFill_canvas_regs (e : Engine) (x y w h col : Nat)
    (hcx : cameraX e = 0) (hcy : cameraY e = 0) (hw : x + w ≤ 192) (hh : y + h ≤ 192) :
    ∃ e', RectFill e x y w h col = some e' ∧ regsKept e e' := by
  rw [RectFill_canvas_loops e x y w h col hcx hcy hw hh]
  apply forLoop_inv (fun _ u => regsKept e u)
  · exact regsKept_refl e
  · intro r u hr hu
    obtain ⟨v, hv, hkeep⟩ := canvas_loop_regs u h (fun _ => r + x) (fun c => c + y) col
      (fun c hc => ⟨by dsimp only; omega, by dsimp only; omega⟩)
    exact ⟨v, hv, regsKept_trans hu hkeep⟩

theorem Rect_canvas_regs (e : Engine) (x y w h col : Nat)
    (hcx : cameraX e = 0) (hcy : cameraY e = 0) (hw1 : 1 ≤ w) (hh1 : 1 ≤ h)
    (hw : x + w ≤ 192) (hh : y + h ≤ 192) :
    ∃ e', Rect e x y w h col = some e' ∧ regsKept e e' := by
  rw [Rect_canvas_loops e x y w h col hcx hcy hw1 hh1 hw hh]
  obtain ⟨e1, he1, hP1⟩ := forLoop_inv (fun _ u => regsKept e u)
    (fun r e2 =>
      (Pset e2 ((x + r : Nat) : Int) (y : Int) col).bind fun e3 =>
        Pset e3 ((x + r : Nat) : Int) ((y + (h - 1) : Nat) : Int) col)
    w e (regsKept_refl e)
    (by
      intro k u hk hu
      obtain ⟨v1, hv1, hQ1⟩ := Pset_canvas_regs u (x + k) y col (by omega) (by omega)
      obtain ⟨v2, hv2, hQ2⟩ := Pset_canvas_regs v1 (x + k) (y + (h - 1)) col
        (by omega) (by omega)
      exact ⟨v2, by dsimp only; rw [hv1, Option.some_bind]; exact hv2,
        regsKept_trans hu (regsKept_trans hQ1 hQ2)⟩)
  obtain ⟨e2, he2, hP2⟩ := forLoop_inv (fun _ u => regsKept e u)
    (fun c e2 =>
      (Pset e2 (x : Int) ((y + c : Nat) : Int) col).bind fun e3 =>
        Pset e3 ((x + (w - 1) : Nat) : Int) ((y + c : Nat) : Int) col)
    h e1 hP1
    (by
      intro k u hk hu
      obtain ⟨v1, hv1, hQ1⟩ := Pset_canvas_regs u x (y + k) col (by omega) (by omega)
      obtain ⟨v2, hv2, hQ2⟩ := Pset_canvas_regs v1 (x + (w - 1)) (y + k) col
        (by omega) (by omega)
      exact ⟨v2, by dsimp only; rw [hv1, Option.some_bind]; exact hv2,
        regsKept_trans hu (regsKept_trans hQ1 hQ2)⟩)
  exact ⟨e2, by rw [he1]; exact he2, hP2⟩

/-- C26 (counterexample): on the all-zero memory `Pset(40, 288, Col3)` succeeds and
changes the clip register byte `0x360A` (the colour byte `40/4 + 288*48`) from 0 to 3. -/
theorem Pset_writes_clip_register :
    (Pset zeroEngine 40 288 Col3).map (fun e => e.RAM 0x360A) = some 3 ∧
      zeroEngine.RAM 0x360A = 0 ∧ pixAddr 40 288 = 0x360A := by
  decide

/-- C26 (amended): at canvas coordinates `Pset(x, y, col)` succeeds and changes only bytes
of the two bitplanes: every byte from `0x3601` on, in particular the register and input
area `0x3601 .. 0x3647`, is unchanged. With camera `(0, 0)` the same holds for `RectFill` on
a box inside the canvas, for `Rect` on a box inside the canvas with `w ≥ 1`, `h ≥ 1`, and
for `Line` between two points of the canvas. -/
theorem drawing_keeps_registers (e : Engine) (col : Nat) :
    (∀ x y : Nat, x < 192 → y < 192 →
      ∃ e', Pset e x y col = some e' ∧ ∀ a, 0x3601 ≤ a → e'.RAM a = e.RAM a) ∧
    (cameraX e = 0 → cameraY e = 0 →
      (∀ x y w h : Nat, x + w ≤ 192 → y + h ≤ 192 →
        ∃ e', RectFill e x y w h col = some e' ∧ ∀ a, 0x3601 ≤ a → e'.RAM a = e.RAM a) ∧
      (∀ x y w h : Nat, 1 ≤ w → 1 ≤ h → x + w ≤ 192 → y + h ≤ 192 →
        ∃ e', Rect e x y w h col = some e' ∧ ∀ a, 0x3601 ≤ a → e'.RAM a = e.RAM a) ∧
      (∀ x1 y1 x2 y2 : Nat, x1 < 192 → y1 < 192 → x2 < 192 → y2 < 192 →
        ∃ e', Line e x1 y1 x2 y2 col = some e' ∧ ∀ a, 0x3601 ≤ a → e'.RAM a = e.RAM a)) := by
  refine ⟨fun x y hx hy => Pset_canvas_regs e x y col hx hy, fun hcx hcy => ⟨?_, ?_, ?_⟩⟩
  · intro x y w h hw hh
    exact RectFill_canvas_regs e x y w h col hcx hcy hw hh
  · intro x y w h hw1 hh1 hw hh
    exact Rect_canvas_regs e x y w h col hcx hcy hw1 hh1 hw hh
  · intro x1 y1 x2 y2 hx1 hy1 hx2 hy2
    obtain ⟨n, px, py, hcan, hline⟩ := Line_canvas e x1 y1 x2 y2 col hcx hcy hx1 hx2 hy1 hy2
    rw [hline]
    exact canvas_loop_regs e n px py col hcan

end Golf
